import Mathlib

/-!
# Verification of the pytest-suggest compressed trie engine

Shallow embedding of `src/pytest_suggest/trie.py`: the `Node` and `Trie`
data model, phase-1 uncompressed insertion (`Trie.from_words`), the
compression pass (`Trie._compress` / `Node.merge_with_child`), the query
surface (`Trie.__contains__`, `Trie.words`, `Trie._find_node`), and the
persistence codec (`Node._to_dict` / `Node._from_dict`, `Trie.save` /
`Trie.load`).

Python strings are modelled as `List Char` (sequences of opaque code
units); the `children` dict of a node is modelled as an association list
`List (Char × Node)` whose assignment operation mirrors Python dict
assignment (replace in place, or append for a fresh key).  The `parent`
weak back-references of the Python code are not carried explicitly: in a
pure tree embedding the parent of a node is the node that owns it in its
`children` list, so re-pointing a grandchild's parent (as
`merge_with_child` does) is exactly the fact that the grandchildren
become direct children of the merged node.

The two loops whose termination is not structural (`Trie._compress` and
the walk of `Trie._find_node`) appear twice: once as well-founded
recursions (`Node.compress`, `Trie.findFrom`), used by the statements,
and once as literally fueled loops (`Node.compressFuel`,
`Trie.findFromFuel`), used to evaluate concrete instances by kernel
reduction; the `*_of_fuel` theorems prove the two agree.
-/

/-- A node of the trie (`class Node` in `trie.py`).

`pfx` embeds the Python attribute `prefix` (the full string from the root
down to and including this node), `part_len` the length of the suffix the
node contributes, `children` the first-code-unit-keyed child map, and
`is_word` the word-terminal flag. -/
inductive Node where
  | mk : List Char → Nat → List (Char × Node) → Bool → Node
deriving Repr

/-- The `prefix` attribute of a node. -/
def Node.pfx : Node → List Char
  | .mk p _ _ _ => p

/-- The `part_len` attribute of a node. -/
def Node.part_len : Node → Nat
  | .mk _ l _ _ => l

/-- The `children` attribute of a node, as an association list. -/
def Node.children : Node → List (Char × Node)
  | .mk _ _ cs _ => cs

/-- The `is_word` attribute of a node. -/
def Node.is_word : Node → Bool
  | .mk _ _ _ w => w

/-- Embeds `Node.root()`: the root node, with empty prefix, `part_len 0`,
no children and `is_word = False`. -/
def Node.root : Node := Node.mk [] 0 [] false

/-- Dict lookup on the children map (`self.children.get(child)`). -/
def lookupChild : List (Char × Node) → Char → Option Node
  | [], _ => none
  | (k, n) :: rest, c => if k = c then some n else lookupChild rest c

/-- Embeds `Node.get_child`. -/
def Node.get_child (n : Node) (c : Char) : Option Node :=
  lookupChild n.children c

/-- Dict assignment `self.children[c] = node`: replaces the binding in
place if the key is present, otherwise appends it. -/
def updateChild : List (Char × Node) → Char → Node → List (Char × Node)
  | [], c, n => [(c, n)]
  | (k, m) :: rest, c, n =>
      if k = c then (c, n) :: rest else (k, m) :: updateChild rest c n

/-- Number of nodes in the subtree rooted at a node (used as the
termination measure of the compression pass and of the find walk). -/
def Node.count : Node → Nat
  | .mk _ _ cs _ => 1 + countChildren cs
where
  countChildren : List (Char × Node) → Nat
  | [] => 0
  | (_, c) :: rest => c.count + countChildren rest

/-- Phase-1 uncompressed insertion: the body of the `for word in words`
loop of `Trie.from_words`.  Walking `w` one code unit at a time from `n`,
descending into the existing child when there is one and creating a fresh
single-unit child (`cur.add_child(char)`) otherwise; the node reached
after consuming all of `w` gets `is_word = True`. -/
def Node.insertW : Node → List Char → Node
  | .mk p l cs _, [] => .mk p l cs true
  | .mk p l cs w, c :: rest =>
      match lookupChild cs c with
      | some child => .mk p l (updateChild cs c (child.insertW rest)) w
      | none =>
          .mk p l (updateChild cs c ((Node.mk (p ++ [c]) 1 [] false).insertW rest)) w

/-- The in-place merge performed by `Node.merge_with_child` once its
guard has passed, as a pure function: the node adopts the only child's
`prefix`, `children` and `is_word`, and sums the two `part_len`s.
(On a node whose child list is not a singleton this returns the node
unchanged; `merge_with_child` and `_compress` only reach it with exactly
one child.) -/
def mergeNode (n : Node) : Node :=
  match n.children with
  | [(_, child)] => Node.mk child.pfx (n.part_len + child.part_len) child.children child.is_word
  | _ => n

/-- Embeds `Node.merge_with_child`: raises (`Except.error`, embedding the
`RuntimeError`) when the node is a word node or does not have exactly one
child; the check precedes every mutation, so in the error case the node
is untouched.  On success the merge of `mergeNode` is performed; the
grandchildren's parent back-references are repointed to the merged node,
which in this pure tree embedding is the fact that they are now its
direct children. -/
def Node.merge_with_child (n : Node) : Except String Node :=
  if n.is_word = true ∨ n.children.length ≠ 1 then
    Except.error "Cannot merge a word node or with multiple children"
  else
    Except.ok (mergeNode n)

/-- The compression pass `Trie._compress`, as a recursion: the stack loop
pops a node; when it has exactly one child, is not a word and is not the
root (`part_len == 0`), it is merged with the child and re-examined,
otherwise its children are pushed and processed independently (the
subtrees on the stack are disjoint, so the loop is exactly this
recursion's schedule). -/
def Node.compress (n : Node) : Node :=
  if n.children.length = 1 ∧ n.is_word = false ∧ n.part_len ≠ 0 then
    Node.compress (mergeNode n)
  else
    Node.mk n.pfx n.part_len (goChildren n.children) n.is_word
termination_by (n.count, 0)
decreasing_by
  · apply Prod.Lex.left
    have hlen : n.children.length = 1 := by omega
    cases n with
    | mk p l cs w =>
        simp only [Node.children] at hlen
        rcases cs with _ | ⟨⟨k, child⟩, tl⟩
        · simp at hlen
        · rcases tl with _ | ⟨hd2, tl2⟩
          · cases child with
            | mk cp cl ccs cw =>
                simp only [mergeNode, Node.children, Node.pfx, Node.part_len,
                  Node.is_word, Node.count, Node.count.countChildren]
                omega
          · simp at hlen
  · apply Prod.Lex.left
    cases n with
    | mk p l cs w =>
        simp only [Node.children, Node.count]
        omega
where
  goChildren : List (Char × Node) → List (Char × Node)
  | [] => []
  | (k, c) :: rest => (k, Node.compress c) :: goChildren rest
  termination_by cs => (Node.count.countChildren cs, 1)
  decreasing_by
    · simp only [Node.count.countChildren]
      rcases Nat.lt_or_ge c.count (c.count + Node.count.countChildren rest) with hlt | hge
      · exact Prod.Lex.left _ _ hlt
      · have h0 : Node.count.countChildren rest = 0 := by omega
        rw [h0]
        exact Prod.Lex.right _ (by omega)
    · apply Prod.Lex.left
      simp only [Node.count.countChildren]
      have hc : 0 < c.count := by
        cases c with
        | mk a b d e => simp only [Node.count]; omega
      omega

/-- Embeds `Trie._compress` as the literal fueled loop: each step consumes one
unit of fuel, merged nodes are re-examined and children are processed
independently; `none` means the fuel ran out before the loop finished.
(Fuel bounded by twice the node count always suffices, see
`compressFuel_isSome`.) -/
def Node.compressFuel : Nat → Node → Option Node
  | 0, _ => none
  | fuel + 1, n =>
      if n.children.length = 1 ∧ n.is_word = false ∧ n.part_len ≠ 0 then
        Node.compressFuel fuel (mergeNode n)
      else
        match goChildren fuel n.children with
        | some cs => some (Node.mk n.pfx n.part_len cs n.is_word)
        | none => none
where
  goChildren : Nat → List (Char × Node) → Option (List (Char × Node))
  | _, [] => some []
  | 0, _ :: _ => none
  | fuel + 1, (k, c) :: rest =>
      match Node.compressFuel fuel c, goChildren fuel rest with
      | some c', some rest' => some ((k, c') :: rest')
      | _, _ => none
termination_by structural fuel => fuel

/-- The `while cur < len(prefix)` walk of `Trie._find_node`: `current`
is the node reached so far and `cur` the number of code units consumed.
Each step follows the child keyed by the next code unit (returning `none`
when there is none) and skips `child.part_len` units.  Every step
descends into a child, so the walk is bounded by the tree's node
count. -/
def Trie.findFrom (current : Node) (p : List Char) (cur : Nat) : Option Node :=
  if h : cur < p.length then
    match hc : current.get_child (p.get ⟨cur, h⟩) with
    | none => none
    | some child => Trie.findFrom child p (cur + child.part_len)
  else
    some current
termination_by current.count
decreasing_by
  have key : ∀ (cs : List (Char × Node)) (ch : Char) (m : Node),
      lookupChild cs ch = some m → m.count < 1 + Node.count.countChildren cs := by
    intro cs
    induction cs with
    | nil => intro ch m hm; simp [lookupChild] at hm
    | cons hd tl ih =>
        intro ch m hm
        cases hd with
        | mk k q =>
            simp only [Node.count.countChildren]
            by_cases hk : k = ch
            · subst hk
              simp [lookupChild] at hm
              subst hm
              omega
            · simp [lookupChild, hk] at hm
              have := ih ch m hm
              omega
  simp only [Node.get_child] at hc
  have := key current.children _ _ hc
  cases current with
  | mk p' l' cs' w' =>
      simp only [Node.children] at this
      simp only [Node.count]
      omega

/-- Embeds the walk of `Trie._find_node` as a fueled loop (the outer `none` means the
fuel ran out; the walk itself descends strictly into the tree, so any
fuel exceeding the subtree node count suffices, see
`findFromFuel_isSome`). -/
def Trie.findFromFuel : Nat → Node → List Char → Nat → Option (Option Node)
  | 0, _, _, _ => none
  | f + 1, current, p, cur =>
      if h : cur < p.length then
        match current.get_child (p.get ⟨cur, h⟩) with
        | none => some none
        | some child => Trie.findFromFuel f child p (cur + child.part_len)
      else
        some (some current)

/-- The trie (`class Trie`): the root node and the `_size` counter. -/
structure Trie where
  root : Node
  size : Nat
deriving Repr

/-- Embeds `Trie.from_words`: phase-1 character-by-character insertion of every
word in order (incrementing `_size` once per word of the input), followed
by the compression pass. -/
def Trie.from_words (ws : List (List Char)) : Trie :=
  Trie.mk (Node.compress (ws.foldl Node.insertW Node.root)) ws.length

/-- Embeds `Trie._find_node`. -/
def Trie.find_node (t : Trie) (p : List Char) : Option Node :=
  Trie.findFrom t.root p 0

/-- Embeds `Trie.__contains__`: locate the node reached by consuming `word`'s
length; it must exist, be a word node and carry exactly `word` as its
prefix. -/
def Trie.containsW (t : Trie) (w : List Char) : Bool :=
  match t.find_node w with
  | some n => n.is_word && n.pfx == w
  | none => false

/-- The words enumerated by the traversal loop of `Trie.words` when
started at a given node: the prefixes of all word nodes in its subtree.
(The Python loop uses an explicit stack and yields in stack order; every
node of the subtree is pushed and popped exactly once, so the yielded
strings form the same finite multiset.) -/
def Node.wordsBelow : Node → List (List Char)
  | .mk p _ cs w => (if w then [p] else []) ++ wordsChildren cs
where
  wordsChildren : List (Char × Node) → List (List Char)
  | [] => []
  | (_, c) :: rest => c.wordsBelow ++ wordsChildren rest

/-- Embeds `Trie.words(prefix)`: start at the root for the empty prefix,
otherwise at the node located by `_find_node` (empty enumeration when the
walk fails), and collect the prefixes of all word nodes below. -/
def Trie.wordsP (t : Trie) (p : List Char) : List (List Char) :=
  if p.isEmpty then t.root.wordsBelow
  else
    match t.find_node p with
    | some n => n.wordsBelow
    | none => []

/-- Embeds `Node.prefix_part` (`self.prefix[-self.part_len:]`): the suffix of
length `part_len` of the node's prefix.  Python slicing makes `s[-0:]`
the whole string, hence the case split on `part_len = 0`. -/
def Node.pfxPart (n : Node) : List Char :=
  if n.part_len = 0 then n.pfx else n.pfx.drop (n.pfx.length - n.part_len)

/-- The serialized form of a node produced by `Node._to_dict`: the fields
`"p"` (contributed part), `"l"` (`part_len`), `"w"` (`is_word`) and `"c"`
(serialized children; `_to_dict` omits the key when the map is empty and
`_from_dict` defaults it to empty, which an always-present possibly-empty
list models exactly). -/
inductive NodeData where
  | mk : List Char → Nat → Bool → List (Char × NodeData) → NodeData
deriving Repr

/-- Field `"p"`. -/
def NodeData.part : NodeData → List Char
  | .mk p _ _ _ => p

/-- Field `"l"`. -/
def NodeData.plen : NodeData → Nat
  | .mk _ l _ _ => l

/-- Field `"w"`. -/
def NodeData.word : NodeData → Bool
  | .mk _ _ w _ => w

/-- Field `"c"`. -/
def NodeData.kids : NodeData → List (Char × NodeData)
  | .mk _ _ _ cs => cs

/-- Embeds `Node._to_dict`. -/
def Node.to_dict : Node → NodeData
  | .mk p l cs w => NodeData.mk (Node.pfxPart (.mk p l cs w)) l w (goChildren cs)
where
  goChildren : List (Char × Node) → List (Char × NodeData)
  | [] => []
  | (k, c) :: rest => (k, c.to_dict) :: goChildren rest

/-- Embeds `Node._from_dict(data, prefix)`: rebuilds `prefix = prefix + data["p"]`,
creates the node, then recreates each serialized child in order and
attaches it with `add_child_node`, which keys the dict entry by the
child's `prefix_part[0]` (the serialized map's own keys are discarded,
as `_from_dict` iterates `.values()`).

Caveat: this embedding is total.  Where a decoded child's reconstructed
`prefix_part` is empty, Python's `prefix_part[0]` raises `IndexError`
and `Trie.load` fails, while `headI` here falls back to a default key
and reconstruction proceeds.  No structure produced by `_to_dict` from a
well-formed trie hits this case (every serialized part is non-empty),
but on such malformed-yet-decodable inputs the embedding succeeds where
the program fails; statements about `load` on malformed inputs are
therefore made only in the failure direction (`claim_C8`), never as an
exhaustive characterisation of the error cases. -/
def Node.from_dict : NodeData → List Char → Node
  | .mk part l w kids, base =>
      Node.mk (base ++ part) l (goChildren kids (base ++ part) []) w
where
  goChildren : List (Char × NodeData) → List Char → List (Char × Node) → List (Char × Node)
  | [], _, acc => acc
  | (_, d) :: rest, p, acc =>
      let child := Node.from_dict d p
      goChildren rest p (updateChild acc child.pfxPart.headI child)

/-- The decoded top-level structure consumed by `Trie.load`: the `"r"`
and `"s"` fields, each possibly absent. -/
structure TrieData where
  r : Option NodeData
  s : Option Nat
deriving Repr

/-- Embeds `Trie.save`: the serialized structure `{"r": root.to_dict(), "s": size}`
that is then encoded and compressed by the external `orjson`/`bz2`
libraries (the byte encoding itself is outside the embedding). -/
def Trie.save_model (t : Trie) : TrieData :=
  TrieData.mk (some t.root.to_dict) (some t.size)

/-- Embeds `Trie.load`: `none` stands for an input whose decompression or
decoding failed (the exception propagates and no trie is returned);
otherwise a missing `"r"` or `"s"` field raises
`ValueError("Invalid trie data")`, and only a fully decoded structure
yields a trie. -/
def Trie.load_model : Option TrieData → Except String Trie
  | none => Except.error "decompression or decoding failed"
  | some d =>
      match d.r, d.s with
      | some r, some s => Except.ok (Trie.mk (Node.from_dict r []) s)
      | some _, none => Except.error "Invalid trie data"
      | none, _ => Except.error "Invalid trie data"

/-- The parent/child link invariant of the data model: child `c`, keyed
by `k`, contributes a non-empty part starting with `k`, of length
`part_len`, extending the parent's prefix `base`. -/
def ChildLink (base : List Char) (k : Char) (c : Node) : Prop :=
  ∃ part : List Char,
    c.pfx = base ++ part ∧ c.part_len = part.length ∧ part.head? = some k

/-- Relation `Subnode m n`: `m` is a node of the subtree rooted at `n` (reachable
through `children`, including `n` itself). -/
inductive Subnode : Node → Node → Prop where
  | refl (n : Node) : Subnode n n
  | step {m c n : Node} {k : Char} :
      (k, c) ∈ n.children → Subnode m c → Subnode m n

/-- Relation `StrictSub m n`: `m` is a node of the subtree of `n` strictly below
`n` (reachable through at least one `children` edge). -/
def StrictSub (m n : Node) : Prop :=
  ∃ pr : Char × Node, pr ∈ n.children ∧ Subnode m pr.2

/-- Well-formedness of a node's subtree: child keys are distinct, every
child satisfies the `ChildLink` invariant, recursively. -/
inductive Wf : Node → Prop where
  | mk : ∀ n : Node,
      (n.children.map Prod.fst).Nodup →
      (∀ pr ∈ n.children, ChildLink n.pfx pr.1 pr.2) →
      (∀ pr ∈ n.children, Wf pr.2) →
      Wf n

/-- Shape of the phase-1 (uncompressed) trees: every child contributes
exactly one code unit, equal to its key. -/
inductive Uni : Node → Prop where
  | mk : ∀ n : Node,
      (n.children.map Prod.fst).Nodup →
      (∀ pr ∈ n.children, pr.2.pfx = n.pfx ++ [pr.1] ∧ pr.2.part_len = 1) →
      (∀ pr ∈ n.children, Uni pr.2) →
      Uni n

/-- The word `w` is present below `n` in a phase-1 tree: the walk
following one code unit at a time exists and ends on a word node. -/
def Present : Node → List Char → Prop
  | n, [] => n.is_word = true
  | n, c :: rest => ∃ child, lookupChild n.children c = some child ∧ Present child rest

-- ===================================================================
-- Theorems
-- ===================================================================

@[simp] theorem Node.pfx_mk (p l cs w) : (Node.mk p l cs w).pfx = p := rfl
@[simp] theorem Node.part_len_mk (p l cs w) : (Node.mk p l cs w).part_len = l := rfl
@[simp] theorem Node.children_mk (p l cs w) : (Node.mk p l cs w).children = cs := rfl
@[simp] theorem Node.is_word_mk (p l cs w) : (Node.mk p l cs w).is_word = w := rfl

theorem Node.ext_self (n : Node) : n = Node.mk n.pfx n.part_len n.children n.is_word := by
  cases n; rfl

@[simp] theorem Node.count_mk (p l cs w) :
    (Node.mk p l cs w).count = 1 + Node.count.countChildren cs := rfl

theorem Node.count_pos (n : Node) : 0 < n.count := by
  cases n with
  | mk p l cs w => simp [Node.count]

theorem count_lt_of_mem {pr : Char × Node} {cs : List (Char × Node)}
    (h : pr ∈ cs) : pr.2.count < 1 + Node.count.countChildren cs := by
  induction cs with
  | nil => cases h
  | cons hd tl ih =>
      cases hd with
      | mk k' c' =>
          rcases List.mem_cons.mp h with h | h
          · subst h
            simp only [Node.count.countChildren]
            have := c'.count_pos
            omega
          · have := ih h
            simp only [Node.count.countChildren] at *
            omega

theorem count_children_lt {pr : Char × Node} {n : Node} (h : pr ∈ n.children) :
    pr.2.count < n.count := by
  cases n with
  | mk p l cs w => simpa [Node.count] using count_lt_of_mem h

theorem mergeNode_count_lt {n : Node} (h : n.children.length = 1) :
    (mergeNode n).count < n.count := by
  cases n with
  | mk p l cs w =>
      match cs, h with
      | [(k, child)], _ =>
          cases child with
          | mk cp cl ccs cw =>
              simp [mergeNode, Node.count, Node.count.countChildren]

theorem lookupChild_mem {cs : List (Char × Node)} {c : Char} {n : Node}
    (h : lookupChild cs c = some n) : (c, n) ∈ cs := by
  induction cs with
  | nil => simp [lookupChild] at h
  | cons hd tl ih =>
      cases hd with
      | mk k m =>
          by_cases hk : k = c
          · subst hk
            simp [lookupChild] at h
            subst h
            exact List.mem_cons_self _ _
          · simp [lookupChild, hk] at h
            exact List.mem_cons_of_mem _ (ih h)

theorem get_child_count_lt {n child : Node} {c : Char}
    (h : n.get_child c = some child) : child.count < n.count :=
  count_children_lt (lookupChild_mem h)

theorem compress_goChildren_nil : Node.compress.goChildren [] = [] := by
  rw [Node.compress.goChildren]

theorem compress_goChildren_cons (k : Char) (c : Node) (rest : List (Char × Node)) :
    Node.compress.goChildren ((k, c) :: rest)
      = (k, c.compress) :: Node.compress.goChildren rest := by
  rw [Node.compress.goChildren]

theorem compress_unfold (n : Node) :
    n.compress =
      if n.children.length = 1 ∧ n.is_word = false ∧ n.part_len ≠ 0 then
        Node.compress (mergeNode n)
      else
        Node.mk n.pfx n.part_len (Node.compress.goChildren n.children) n.is_word := by
  rw [Node.compress]

/-- A successful run of the fueled compression loop computes exactly the
recursive `Node.compress` (and likewise for the child lists). -/
theorem compress_of_fuel_both :
    ∀ f : Nat,
      (∀ n m : Node, Node.compressFuel f n = some m → n.compress = m)
      ∧ (∀ cs rs : List (Char × Node),
          Node.compressFuel.goChildren f cs = some rs →
          Node.compress.goChildren cs = rs) := by
  intro f
  induction f with
  | zero =>
      constructor
      · intro n m h; simp [Node.compressFuel] at h
      · intro cs rs h
        cases cs with
        | nil =>
            rw [Node.compressFuel.goChildren] at h
            cases h
            exact compress_goChildren_nil
        | cons hd tl => simp [Node.compressFuel.goChildren] at h
  | succ g ih =>
      constructor
      · intro n m h
        rw [Node.compressFuel] at h
        by_cases hcond : n.children.length = 1 ∧ n.is_word = false ∧ n.part_len ≠ 0
        · rw [if_pos hcond] at h
          rw [compress_unfold, if_pos hcond]
          exact ih.1 _ _ h
        · rw [if_neg hcond] at h
          rw [compress_unfold, if_neg hcond]
          cases hgoc : Node.compressFuel.goChildren g n.children with
          | none => rw [hgoc] at h; simp at h
          | some cs' =>
              rw [hgoc] at h
              simp at h
              rw [ih.2 _ _ hgoc, ← h]
      · intro cs rs h
        cases cs with
        | nil =>
            rw [Node.compressFuel.goChildren] at h
            cases h
            exact compress_goChildren_nil
        | cons hd tl =>
            cases hd with
            | mk k c =>
                rw [Node.compressFuel.goChildren] at h
                cases hc : Node.compressFuel g c with
                | none => rw [hc] at h; simp at h
                | some c' =>
                    cases ht : Node.compressFuel.goChildren g tl with
                    | none => rw [hc, ht] at h; simp at h
                    | some tl' =>
                        rw [hc, ht] at h
                        simp at h
                        rw [compress_goChildren_cons, ih.2 _ _ ht, ih.1 _ _ hc, h]

theorem compress_of_fuel (f : Nat) (n m : Node)
    (h : Node.compressFuel f n = some m) : n.compress = m :=
  (compress_of_fuel_both f).1 n m h

/-- With fuel at least twice the number of nodes in the subtree, the
fueled compression loop finishes (each execution of the loop body either
merges, strictly shrinking the tree, or moves to strictly smaller
subtrees). -/
theorem compressFuel_isSome_both :
    ∀ f : Nat,
      (∀ n : Node, 2 * n.count ≤ f → (Node.compressFuel f n).isSome)
      ∧ (∀ cs : List (Char × Node),
          2 * Node.count.countChildren cs + 1 ≤ f →
          (Node.compressFuel.goChildren f cs).isSome) := by
  intro f
  induction f with
  | zero =>
      constructor
      · intro n hn; exact absurd hn (by have := n.count_pos; omega)
      · intro cs h; omega
  | succ g ih =>
      constructor
      · intro n hn
        rw [Node.compressFuel]
        by_cases hcond : n.children.length = 1 ∧ n.is_word = false ∧ n.part_len ≠ 0
        · rw [if_pos hcond]
          have h1 : (mergeNode n).count < n.count := mergeNode_count_lt hcond.1
          exact ih.1 _ (by omega)
        · rw [if_neg hcond]
          have hcc : 2 * Node.count.countChildren n.children + 1 ≤ g := by
            have : n.count = 1 + Node.count.countChildren n.children := by
              cases n with | mk p l cs w => rfl
            omega
          have := ih.2 n.children hcc
          cases hgoc : Node.compressFuel.goChildren g n.children with
          | none => rw [hgoc] at this; simp at this
          | some cs' => rfl
      · intro cs hcs
        cases cs with
        | nil => rw [Node.compressFuel.goChildren]; rfl
        | cons hd tl =>
            cases hd with
            | mk k c =>
                simp only [Node.count.countChildren] at hcs
                have hcp := c.count_pos
                have h1 := ih.1 c (by omega)
                have h2 := ih.2 tl (by omega)
                rw [Node.compressFuel.goChildren]
                cases hfc : Node.compressFuel g c with
                | none => rw [hfc] at h1; simp at h1
                | some c' =>
                    cases hft : Node.compressFuel.goChildren g tl with
                    | none => rw [hft] at h2; simp at h2
                    | some tl' => rfl

theorem compressFuel_isSome (f : Nat) (n : Node) (h : 2 * n.count ≤ f) :
    (Node.compressFuel f n).isSome :=
  (compressFuel_isSome_both f).1 n h

theorem findFrom_term (current : Node) (p : List Char) (cur : Nat) (h : ¬ cur < p.length) :
    Trie.findFrom current p cur = some current := by
  rw [Trie.findFrom]
  rw [dif_neg h]

theorem findFrom_none (current : Node) (p : List Char) (cur : Nat) (h : cur < p.length)
    (hgc : current.get_child (p.get ⟨cur, h⟩) = none) :
    Trie.findFrom current p cur = none := by
  rw [Trie.findFrom]
  rw [dif_pos h]
  split
  · rfl
  · rename_i child hc
    rw [hgc] at hc
    cases hc

theorem findFrom_step (current : Node) (p : List Char) (cur : Nat) (h : cur < p.length)
    (child : Node) (hgc : current.get_child (p.get ⟨cur, h⟩) = some child) :
    Trie.findFrom current p cur = Trie.findFrom child p (cur + child.part_len) := by
  rw [Trie.findFrom]
  rw [dif_pos h]
  split
  · rename_i hc
    rw [hgc] at hc
    cases hc
  · rename_i child' hc
    rw [hgc] at hc
    cases hc
    rfl

/-- A successful run of the fueled walk computes exactly
`Trie.findFrom`. -/
theorem findFrom_of_fuel :
    ∀ (f : Nat) (current : Node) (p : List Char) (cur : Nat) (r : Option Node),
      Trie.findFromFuel f current p cur = some r → Trie.findFrom current p cur = r := by
  intro f
  induction f with
  | zero => intro current p cur r h; simp [Trie.findFromFuel] at h
  | succ g ih =>
      intro current p cur r h
      rw [Trie.findFromFuel] at h
      by_cases hlt : cur < p.length
      · rw [dif_pos hlt] at h
        cases hgc : current.get_child (p.get ⟨cur, hlt⟩) with
        | none =>
            rw [hgc] at h
            simp at h
            rw [findFrom_none current p cur hlt hgc, h]
        | some child =>
            rw [hgc] at h
            rw [findFrom_step current p cur hlt child hgc]
            exact ih child p _ r h
      · rw [dif_neg hlt] at h
        simp at h
        rw [findFrom_term current p cur hlt, h]

theorem findFromFuel_isSome :
    ∀ (f : Nat) (current : Node) (p : List Char) (cur : Nat),
      current.count < f → (Trie.findFromFuel f current p cur).isSome := by
  intro f
  induction f with
  | zero => intro current p cur h; omega
  | succ g ih =>
      intro current p cur h
      rw [Trie.findFromFuel]
      by_cases hlt : cur < p.length
      · rw [dif_pos hlt]
        cases hgc : current.get_child (p.get ⟨cur, hlt⟩) with
        | none => rfl
        | some child =>
            have := get_child_count_lt hgc
            exact ih child p _ (by omega)
      · rw [dif_neg hlt]; rfl

/-- Evaluation form of `Trie.from_words`: the compression expressed
through the fueled loop with sufficient fuel, so that the right-hand
side evaluates by kernel reduction. -/
theorem from_words_eq_fuel (ws : List (List Char)) :
    Trie.from_words ws
      = Trie.mk ((Node.compressFuel (2 * (ws.foldl Node.insertW Node.root).count)
          (ws.foldl Node.insertW Node.root)).getD Node.root) ws.length := by
  have h := compressFuel_isSome (2 * (ws.foldl Node.insertW Node.root).count)
    (ws.foldl Node.insertW Node.root) le_rfl
  obtain ⟨m, hm⟩ := Option.isSome_iff_exists.mp h
  unfold Trie.from_words
  rw [compress_of_fuel _ _ _ hm, hm]
  rfl

/-- Evaluation form of `Trie._find_node` through the fueled walk. -/
theorem find_node_eq_fuel (t : Trie) (p : List Char) :
    t.find_node p = (Trie.findFromFuel (t.root.count + 1) t.root p 0).getD none := by
  have h := findFromFuel_isSome (t.root.count + 1) t.root p 0 (by omega)
  obtain ⟨r, hr⟩ := Option.isSome_iff_exists.mp h
  rw [Trie.find_node, findFrom_of_fuel _ _ _ _ _ hr, hr]
  rfl

/-- Evaluation form of `Trie.__contains__`. -/
theorem containsW_eq_fuel (t : Trie) (w : List Char) :
    t.containsW w
      = (match (Trie.findFromFuel (t.root.count + 1) t.root w 0).getD none with
        | some n => n.is_word && n.pfx == w
        | none => false) := by
  rw [Trie.containsW, find_node_eq_fuel]

/-- Evaluation form of `Trie.words`. -/
theorem wordsP_eq_fuel (t : Trie) (p : List Char) :
    t.wordsP p
      = (if p.isEmpty then t.root.wordsBelow
        else
          match (Trie.findFromFuel (t.root.count + 1) t.root p 0).getD none with
          | some n => n.wordsBelow
          | none => []) := by
  rw [Trie.wordsP, find_node_eq_fuel]

-- ===================================================================
-- Children lists: lookup, update, enumeration
-- ===================================================================

@[simp] theorem wordsChildren_nil : Node.wordsBelow.wordsChildren [] = [] := rfl

theorem wordsChildren_cons (pr : Char × Node) (rest : List (Char × Node)) :
    Node.wordsBelow.wordsChildren (pr :: rest)
      = pr.2.wordsBelow ++ Node.wordsBelow.wordsChildren rest := by
  cases pr; rfl

@[simp] theorem Node.wordsBelow_mk (p l cs w) :
    (Node.mk p l cs w).wordsBelow
      = (if w then [p] else []) ++ Node.wordsBelow.wordsChildren cs := rfl

theorem wordsChildren_append (cs1 cs2 : List (Char × Node)) :
    Node.wordsBelow.wordsChildren (cs1 ++ cs2)
      = Node.wordsBelow.wordsChildren cs1 ++ Node.wordsBelow.wordsChildren cs2 := by
  induction cs1 with
  | nil => simp
  | cons hd tl ih => simp [wordsChildren_cons, ih]

theorem mem_wordsChildren_iff {v : List Char} {cs : List (Char × Node)} :
    v ∈ Node.wordsBelow.wordsChildren cs ↔ ∃ pr ∈ cs, v ∈ pr.2.wordsBelow := by
  induction cs with
  | nil => simp
  | cons hd tl ih =>
      rw [wordsChildren_cons, List.mem_append, ih]
      constructor
      · rintro (h | ⟨pr, hpr, hv⟩)
        · exact ⟨hd, List.mem_cons_self _ _, h⟩
        · exact ⟨pr, List.mem_cons_of_mem _ hpr, hv⟩
      · rintro ⟨pr, hpr, hv⟩
        rcases List.mem_cons.mp hpr with rfl | hpr
        · exact Or.inl hv
        · exact Or.inr ⟨pr, hpr, hv⟩

theorem lookupChild_eq_none {cs : List (Char × Node)} {c : Char} :
    lookupChild cs c = none ↔ c ∉ cs.map Prod.fst := by
  induction cs with
  | nil => simp [lookupChild]
  | cons hd tl ih =>
      cases hd with
      | mk k m =>
          by_cases hk : k = c
          · subst hk; simp [lookupChild]
          · simp [lookupChild, hk, ih, Ne.symm hk]

theorem updateChild_of_none {cs : List (Char × Node)} {c : Char} (n : Node)
    (h : lookupChild cs c = none) : updateChild cs c n = cs ++ [(c, n)] := by
  induction cs with
  | nil => rfl
  | cons hd tl ih =>
      cases hd with
      | mk k m =>
          by_cases hk : k = c
          · subst hk; simp [lookupChild] at h
          · simp only [lookupChild, if_neg hk] at h
            simp [updateChild, hk, ih h]

theorem updateChild_self {cs : List (Char × Node)} {c : Char} {m : Node}
    (h : lookupChild cs c = some m) : updateChild cs c m = cs := by
  induction cs with
  | nil => simp [lookupChild] at h
  | cons hd tl ih =>
      cases hd with
      | mk k q =>
          by_cases hk : k = c
          · subst hk
            simp [lookupChild] at h
            simp [updateChild, h]
          · simp only [lookupChild, if_neg hk] at h
            simp [updateChild, hk, ih h]

theorem mem_updateChild {pr : Char × Node} {cs : List (Char × Node)} {c : Char} {n : Node}
    (h : pr ∈ updateChild cs c n) : pr = (c, n) ∨ pr ∈ cs := by
  induction cs with
  | nil => simpa [updateChild] using h
  | cons hd tl ih =>
      cases hd with
      | mk k m =>
          by_cases hk : k = c
          · subst hk
            simp only [updateChild, if_pos rfl] at h
            rcases List.mem_cons.mp h with rfl | h
            · exact Or.inl rfl
            · exact Or.inr (List.mem_cons_of_mem _ h)
          · simp only [updateChild, if_neg hk] at h
            rcases List.mem_cons.mp h with rfl | h
            · exact Or.inr (List.mem_cons_self _ _)
            · rcases ih h with h | h
              · exact Or.inl h
              · exact Or.inr (List.mem_cons_of_mem _ h)

theorem keys_updateChild_some {cs : List (Char × Node)} {c : Char} {m : Node} (n : Node)
    (h : lookupChild cs c = some m) :
    (updateChild cs c n).map Prod.fst = cs.map Prod.fst := by
  induction cs with
  | nil => simp [lookupChild] at h
  | cons hd tl ih =>
      cases hd with
      | mk k q =>
          by_cases hk : k = c
          · subst hk; simp [updateChild]
          · simp only [lookupChild, if_neg hk] at h
            simp [updateChild, hk, ih h]

theorem keys_updateChild_none {cs : List (Char × Node)} {c : Char} (n : Node)
    (h : lookupChild cs c = none) :
    (updateChild cs c n).map Prod.fst = cs.map Prod.fst ++ [c] := by
  rw [updateChild_of_none n h]
  simp

theorem lookupChild_updateChild_self {cs : List (Char × Node)} {c : Char} {n : Node} :
    lookupChild (updateChild cs c n) c = some n := by
  induction cs with
  | nil => simp [updateChild, lookupChild]
  | cons hd tl ih =>
      cases hd with
      | mk k m =>
          by_cases hk : k = c
          · subst hk; simp [updateChild, lookupChild]
          · simp [updateChild, lookupChild, hk, ih]

theorem lookupChild_updateChild_ne {cs : List (Char × Node)} {c k : Char} {n : Node}
    (hk : k ≠ c) : lookupChild (updateChild cs c n) k = lookupChild cs k := by
  induction cs with
  | nil => simp [updateChild, lookupChild, Ne.symm hk]
  | cons hd tl ih =>
      cases hd with
      | mk k' m =>
          by_cases hk' : k' = c
          · subst hk'
            simp [updateChild, lookupChild, Ne.symm hk]
          · simp only [updateChild, if_neg hk']
            by_cases hkk : k' = k
            · subst hkk; simp [lookupChild]
            · simp [lookupChild, hkk, ih]

-- ===================================================================
-- Subnode and the enumeration
-- ===================================================================

theorem Subnode.trans {a b c : Node} (h1 : Subnode a b) (h2 : Subnode b c) :
    Subnode a c := by
  induction h2 with
  | refl => exact h1
  | step hmem _ ih => exact Subnode.step hmem ih

theorem node_strong_induction (P : Node → Prop)
    (h : ∀ n : Node, (∀ pr ∈ n.children, P pr.2) → P n) : ∀ n, P n := by
  intro n
  generalize hc : n.count = N
  induction N using Nat.strong_induction_on generalizing n with
  | _ N ih =>
      subst hc
      exact h n (fun pr hpr => ih pr.2.count (count_children_lt hpr) pr.2 rfl)

theorem wordsBelow_sub_of_mem_children {k : Char} {c : Node} {cs : List (Char × Node)}
    (h : (k, c) ∈ cs) {v : List Char} (hv : v ∈ c.wordsBelow) :
    v ∈ Node.wordsBelow.wordsChildren cs :=
  mem_wordsChildren_iff.mpr ⟨(k, c), h, hv⟩

theorem mem_wordsBelow_of_wc {n : Node} {v : List Char}
    (h : v ∈ Node.wordsBelow.wordsChildren n.children) : v ∈ n.wordsBelow := by
  cases n with
  | mk p l cs w =>
      rw [Node.wordsBelow_mk]
      exact List.mem_append_right _ h

theorem mem_wordsBelow_of_subnode {m n : Node} (h : Subnode m n) (hw : m.is_word = true) :
    m.pfx ∈ n.wordsBelow := by
  induction h with
  | refl =>
      cases m with
      | mk p l cs w =>
          simp only [Node.is_word] at hw
          subst hw
          simp
  | step hmem _ ih =>
      exact mem_wordsBelow_of_wc (wordsBelow_sub_of_mem_children hmem ih)

theorem exists_subnode_of_mem_wordsBelow :
    ∀ n : Node, ∀ v : List Char, v ∈ n.wordsBelow →
      ∃ m, Subnode m n ∧ m.is_word = true ∧ m.pfx = v := by
  intro n
  induction n using node_strong_induction with
  | _ n ih =>
      intro v hv
      cases n with
      | mk p l cs w =>
          rw [Node.wordsBelow_mk] at hv
          rcases List.mem_append.mp hv with h | h
          · cases w with
            | false => simp at h
            | true =>
                simp at h
                subst h
                exact ⟨Node.mk v l cs true, Subnode.refl _, rfl, rfl⟩
          · obtain ⟨⟨k, c⟩, hpr, hv'⟩ := mem_wordsChildren_iff.mp h
            obtain ⟨m, hsub, hw, hpfx⟩ := ih (k, c) hpr v hv'
            have hpr' : ((k, c) : Char × Node) ∈ (Node.mk p l cs w).children := hpr
            exact ⟨m, Subnode.step hpr' hsub, hw, hpfx⟩

theorem wordsBelow_subset_of_subnode {m n : Node} (h : Subnode m n) :
    ∀ v ∈ m.wordsBelow, v ∈ n.wordsBelow := by
  intro v hv
  obtain ⟨q, hsub, hw, hpfx⟩ := exists_subnode_of_mem_wordsBelow m v hv
  subst hpfx
  exact mem_wordsBelow_of_subnode (hsub.trans h) hw

-- ===================================================================
-- Phase-1 insertion
-- ===================================================================

theorem uni_keys {n : Node} (h : Uni n) : (n.children.map Prod.fst).Nodup := by
  cases h; assumption

theorem uni_link {n : Node} (h : Uni n) :
    ∀ pr ∈ n.children, pr.2.pfx = n.pfx ++ [pr.1] ∧ pr.2.part_len = 1 := by
  cases h; assumption

theorem uni_child {n : Node} (h : Uni n) : ∀ pr ∈ n.children, Uni pr.2 := by
  cases h; assumption

theorem uni_root : Uni Node.root := by
  constructor <;> simp [Node.root]

theorem uni_leaf (p : List Char) : Uni (Node.mk p 1 [] false) := by
  constructor <;> simp

theorem insertW_nil (p : List Char) (l : Nat) (cs : List (Char × Node)) (w : Bool) :
    (Node.mk p l cs w).insertW [] = Node.mk p l cs true := rfl

theorem insertW_cons_some {cs : List (Char × Node)} {c : Char} {child : Node}
    (p : List Char) (l : Nat) (w : Bool) (rest : List Char)
    (h : lookupChild cs c = some child) :
    (Node.mk p l cs w).insertW (c :: rest)
      = Node.mk p l (updateChild cs c (child.insertW rest)) w := by
  simp only [Node.insertW, h]

theorem insertW_cons_none {cs : List (Char × Node)} {c : Char}
    (p : List Char) (l : Nat) (w : Bool) (rest : List Char)
    (h : lookupChild cs c = none) :
    (Node.mk p l cs w).insertW (c :: rest)
      = Node.mk p l
          (updateChild cs c ((Node.mk (p ++ [c]) 1 [] false).insertW rest)) w := by
  simp only [Node.insertW, h]

theorem insertW_pfx (n : Node) (w : List Char) : (n.insertW w).pfx = n.pfx := by
  cases n with
  | mk p l cs b =>
      cases w with
      | nil => rfl
      | cons c rest =>
          cases h : lookupChild cs c with
          | some child => rw [insertW_cons_some p l b rest h]; rfl
          | none => rw [insertW_cons_none p l b rest h]; rfl

theorem insertW_part_len (n : Node) (w : List Char) :
    (n.insertW w).part_len = n.part_len := by
  cases n with
  | mk p l cs b =>
      cases w with
      | nil => rfl
      | cons c rest =>
          cases h : lookupChild cs c with
          | some child => rw [insertW_cons_some p l b rest h]; rfl
          | none => rw [insertW_cons_none p l b rest h]; rfl

theorem insertW_is_word_cons (n : Node) (c : Char) (rest : List Char) :
    (n.insertW (c :: rest)).is_word = n.is_word := by
  cases n with
  | mk p l cs b =>
      cases h : lookupChild cs c with
      | some child => rw [insertW_cons_some p l b rest h]; rfl
      | none => rw [insertW_cons_none p l b rest h]; rfl

theorem uni_insertW : ∀ (w : List Char) (n : Node), Uni n → Uni (n.insertW w) := by
  intro w
  induction w with
  | nil =>
      intro n h
      cases n with
      | mk p l cs b =>
          rw [insertW_nil]
          constructor
          · have hx := uni_keys h
            exact hx
          · have hx := uni_link h
            exact hx
          · have hx := uni_child h
            exact hx
  | cons c rest ih =>
      intro n h
      cases n with
      | mk p l cs b =>
          cases hl : lookupChild cs c with
          | some child =>
              rw [insertW_cons_some p l b rest hl]
              have hmem := lookupChild_mem hl
              have hlink := uni_link h (c, child) hmem
              have huni := uni_child h (c, child) hmem
              constructor
              · simpa [keys_updateChild_some _ hl] using uni_keys h
              · intro pr hpr
                rcases mem_updateChild hpr with rfl | hpr
                · constructor
                  · simpa [insertW_pfx] using hlink.1
                  · simpa [insertW_part_len] using hlink.2
                · exact uni_link h pr hpr
              · intro pr hpr
                rcases mem_updateChild hpr with rfl | hpr
                · exact ih child huni
                · exact uni_child h pr hpr
          | none =>
              rw [insertW_cons_none p l b rest hl]
              have hnotin := lookupChild_eq_none.mp hl
              constructor
              · simp only [Node.children_mk]
                rw [keys_updateChild_none _ hl]
                have hk := uni_keys h
                simp only [Node.children_mk] at hk
                exact List.Nodup.append hk (List.nodup_singleton c)
                  (by simpa using hnotin)
              · intro pr hpr
                rcases mem_updateChild hpr with rfl | hpr
                · constructor
                  · simp [insertW_pfx]
                  · simp [insertW_part_len]
                · exact uni_link h pr hpr
              · intro pr hpr
                rcases mem_updateChild hpr with rfl | hpr
                · exact ih _ (uni_leaf _)
                · exact uni_child h pr hpr

theorem mem_wc_updateChild_some {cs : List (Char × Node)} {c : Char}
    {child child' : Node} {X : List Char}
    (h : lookupChild cs c = some child)
    (hiff : ∀ u, u ∈ child'.wordsBelow ↔ u ∈ child.wordsBelow ∨ u = X) :
    ∀ v, v ∈ Node.wordsBelow.wordsChildren (updateChild cs c child')
      ↔ v ∈ Node.wordsBelow.wordsChildren cs ∨ v = X := by
  induction cs with
  | nil => simp [lookupChild] at h
  | cons hd tl ih =>
      cases hd with
      | mk k m =>
          intro v
          by_cases hk : k = c
          · subst hk
            simp [lookupChild] at h
            subst h
            have hupd : updateChild ((k, m) :: tl) k child' = (k, child') :: tl := by
              simp [updateChild]
            rw [hupd, wordsChildren_cons, wordsChildren_cons]
            simp only [List.mem_append]
            rw [hiff v]
            tauto
          · simp only [lookupChild, if_neg hk] at h
            simp only [updateChild, if_neg hk]
            rw [wordsChildren_cons, wordsChildren_cons]
            simp only [List.mem_append]
            rw [ih h v]
            tauto

theorem mem_wordsBelow_insertW :
    ∀ (w : List Char) (n : Node), Uni n →
      ∀ v, v ∈ (n.insertW w).wordsBelow ↔ (v ∈ n.wordsBelow ∨ v = n.pfx ++ w) := by
  intro w
  induction w with
  | nil =>
      intro n _ v
      cases n with
      | mk p l cs b =>
          rw [insertW_nil]
          simp only [Node.wordsBelow_mk, List.mem_append, Node.pfx_mk, List.append_nil]
          cases b <;> simp <;> tauto
  | cons c rest ih =>
      intro n hU v
      cases n with
      | mk p l cs b =>
          cases hl : lookupChild cs c with
          | some child =>
              rw [insertW_cons_some p l b rest hl]
              have hmem := lookupChild_mem hl
              have hlink := uni_link hU (c, child) hmem
              have huni := uni_child hU (c, child) hmem
              have hiff : ∀ u, u ∈ (child.insertW rest).wordsBelow
                  ↔ u ∈ child.wordsBelow ∨ u = p ++ (c :: rest) := by
                intro u
                rw [ih child huni u, hlink.1]
                simp
              rw [Node.wordsBelow_mk, Node.wordsBelow_mk]
              simp only [List.mem_append, Node.pfx_mk]
              rw [mem_wc_updateChild_some hl hiff v]
              tauto
          | none =>
              rw [insertW_cons_none p l b rest hl]
              have hiff : ∀ u, u ∈ ((Node.mk (p ++ [c]) 1 [] false).insertW rest).wordsBelow
                  ↔ u = p ++ (c :: rest) := by
                intro u
                rw [ih _ (uni_leaf _) u]
                simp
              rw [Node.wordsBelow_mk, Node.wordsBelow_mk]
              simp only [List.mem_append, Node.pfx_mk]
              rw [updateChild_of_none _ hl, wordsChildren_append, wordsChildren_cons]
              simp only [List.mem_append, wordsChildren_nil, List.not_mem_nil, or_false,
                List.mem_singleton]
              rw [hiff v]
              tauto

theorem uni_foldl : ∀ (ws : List (List Char)) (n : Node), Uni n →
    Uni (ws.foldl Node.insertW n) := by
  intro ws
  induction ws with
  | nil => intro n h; exact h
  | cons w ws' ih =>
      intro n h
      exact ih _ (uni_insertW w n h)

theorem foldl_insertW_pfx : ∀ (ws : List (List Char)) (n : Node),
    (ws.foldl Node.insertW n).pfx = n.pfx := by
  intro ws
  induction ws with
  | nil => intro n; rfl
  | cons w ws' ih =>
      intro n
      rw [List.foldl_cons, ih, insertW_pfx]

theorem foldl_insertW_part_len : ∀ (ws : List (List Char)) (n : Node),
    (ws.foldl Node.insertW n).part_len = n.part_len := by
  intro ws
  induction ws with
  | nil => intro n; rfl
  | cons w ws' ih =>
      intro n
      rw [List.foldl_cons, ih, insertW_part_len]

theorem foldl_insertW_is_word : ∀ (ws : List (List Char)) (n : Node),
    [] ∉ ws → (ws.foldl Node.insertW n).is_word = n.is_word := by
  intro ws
  induction ws with
  | nil => intro n _; rfl
  | cons w ws' ih =>
      intro n h
      rw [List.foldl_cons, ih _ (fun hmem => h (List.mem_cons_of_mem _ hmem))]
      cases w with
      | nil => exact absurd (List.mem_cons_self _ _) h
      | cons c rest => exact insertW_is_word_cons n c rest

theorem mem_wordsBelow_foldl :
    ∀ (ws : List (List Char)) (n : Node), Uni n →
      ∀ v, v ∈ (ws.foldl Node.insertW n).wordsBelow
        ↔ (v ∈ n.wordsBelow ∨ ∃ w ∈ ws, v = n.pfx ++ w) := by
  intro ws
  induction ws with
  | nil => intro n _ v; simp
  | cons w ws' ih =>
      intro n hU v
      rw [List.foldl_cons]
      rw [ih _ (uni_insertW w n hU) v]
      rw [mem_wordsBelow_insertW w n hU v]
      rw [insertW_pfx]
      constructor
      · rintro ((h | h) | ⟨w', hw', h⟩)
        · exact Or.inl h
        · exact Or.inr ⟨w, List.mem_cons_self _ _, h⟩
        · exact Or.inr ⟨w', List.mem_cons_of_mem _ hw', h⟩
      · rintro (h | ⟨w', hw', h⟩)
        · exact Or.inl (Or.inl h)
        · rcases List.mem_cons.mp hw' with rfl | hw'
          · exact Or.inl (Or.inr h)
          · exact Or.inr ⟨w', hw', h⟩

theorem mem_wordsBelow_phase1 (ws : List (List Char)) (v : List Char) :
    v ∈ (ws.foldl Node.insertW Node.root).wordsBelow ↔ v ∈ ws := by
  rw [mem_wordsBelow_foldl ws Node.root uni_root v]
  simp [Node.root]

-- ===================================================================
-- Compression
-- ===================================================================

theorem wf_keys {n : Node} (h : Wf n) : (n.children.map Prod.fst).Nodup := by
  cases h; assumption

theorem wf_link {n : Node} (h : Wf n) :
    ∀ pr ∈ n.children, ChildLink n.pfx pr.1 pr.2 := by
  cases h; assumption

theorem wf_child {n : Node} (h : Wf n) : ∀ pr ∈ n.children, Wf pr.2 := by
  cases h; assumption

theorem wf_of_uni : ∀ n : Node, Uni n → Wf n := by
  intro n
  induction n using node_strong_induction with
  | _ n ih =>
      intro h
      constructor
      · exact uni_keys h
      · intro pr hpr
        obtain ⟨hpfx, hlen⟩ := uni_link h pr hpr
        exact ⟨[pr.1], by simpa using hpfx, by simpa using hlen, rfl⟩
      · intro pr hpr
        exact ih pr hpr (uni_child h pr hpr)

theorem mergeNode_singleton (p : List Char) (l : Nat) (k : Char) (c : Node) (w : Bool) :
    mergeNode (Node.mk p l [(k, c)] w)
      = Node.mk c.pfx (l + c.part_len) c.children c.is_word := rfl

theorem mem_compress_goChildren {pr : Char × Node} :
    ∀ cs : List (Char × Node),
      pr ∈ Node.compress.goChildren cs
        ↔ ∃ k : Char, ∃ c : Node, (k, c) ∈ cs ∧ pr = (k, c.compress) := by
  intro cs
  induction cs with
  | nil =>
      rw [compress_goChildren_nil]
      simp
  | cons hd tl ih =>
      cases hd with
      | mk k' c' =>
          rw [compress_goChildren_cons]
          constructor
          · intro h
            rcases List.mem_cons.mp h with rfl | h
            · exact ⟨k', c', List.mem_cons_self _ _, rfl⟩
            · obtain ⟨k, c, hm, hp⟩ := ih.mp h
              exact ⟨k, c, List.mem_cons_of_mem _ hm, hp⟩
          · rintro ⟨k, c, hm, rfl⟩
            rcases List.mem_cons.mp hm with heq | hm
            · cases heq
              exact List.mem_cons_self _ _
            · exact List.mem_cons_of_mem _ (ih.mpr ⟨k, c, hm, rfl⟩)

theorem keys_compress_goChildren :
    ∀ cs : List (Char × Node),
      (Node.compress.goChildren cs).map Prod.fst = cs.map Prod.fst := by
  intro cs
  induction cs with
  | nil => rw [compress_goChildren_nil]
  | cons hd tl ih =>
      cases hd with
      | mk k c =>
          rw [compress_goChildren_cons]
          simp [ih]

theorem length_compress_goChildren :
    ∀ cs : List (Char × Node),
      (Node.compress.goChildren cs).length = cs.length := by
  intro cs
  induction cs with
  | nil => rw [compress_goChildren_nil]
  | cons hd tl ih =>
      cases hd with
      | mk k c =>
          rw [compress_goChildren_cons]
          simp [ih]

theorem wc_compress_goChildren (cs : List (Char × Node))
    (H : ∀ pr ∈ cs, (Node.compress pr.2).wordsBelow = pr.2.wordsBelow) :
    Node.wordsBelow.wordsChildren (Node.compress.goChildren cs)
      = Node.wordsBelow.wordsChildren cs := by
  induction cs with
  | nil => rw [compress_goChildren_nil]
  | cons hd tl ih =>
      cases hd with
      | mk k c =>
          rw [compress_goChildren_cons, wordsChildren_cons, wordsChildren_cons]
          rw [H (k, c) (List.mem_cons_self _ _)]
          rw [ih (fun pr hpr => H pr (List.mem_cons_of_mem _ hpr))]

/-- Compression preserves the enumerated words exactly. -/
theorem wordsBelow_compress : ∀ n : Node, n.compress.wordsBelow = n.wordsBelow := by
  intro n
  generalize hN : n.count = N
  induction N using Nat.strong_induction_on generalizing n with
  | _ N ih =>
      subst hN
      rw [compress_unfold]
      by_cases hcond : n.children.length = 1 ∧ n.is_word = false ∧ n.part_len ≠ 0
      · rw [if_pos hcond]
        have hlt := mergeNode_count_lt hcond.1
        rw [ih (mergeNode n).count hlt (mergeNode n) rfl]
        obtain ⟨hlen, hw, hpl⟩ := hcond
        cases n with
        | mk p l cs w =>
            simp only [Node.children_mk] at hlen
            simp only [Node.is_word_mk] at hw
            subst hw
            rcases cs with _ | ⟨⟨k, c⟩, tl⟩
            · simp at hlen
            · rcases tl with _ | ⟨hd2, tl2⟩
              · rw [mergeNode_singleton]
                cases c with
                | mk cp cl ccs cw =>
                    simp only [Node.pfx_mk, Node.part_len_mk, Node.children_mk,
                      Node.is_word_mk, Node.wordsBelow_mk]
                    rw [wordsChildren_cons]
                    simp
              · simp at hlen
      · rw [if_neg hcond]
        have H : ∀ pr ∈ n.children, (Node.compress pr.2).wordsBelow = pr.2.wordsBelow :=
          fun pr hpr => ih pr.2.count (count_children_lt hpr) pr.2 rfl
        cases n with
        | mk p l cs w =>
            simp only [Node.pfx_mk, Node.part_len_mk, Node.children_mk, Node.is_word_mk]
            rw [Node.wordsBelow_mk, Node.wordsBelow_mk]
            rw [wc_compress_goChildren cs H]

/-- Compression preserves well-formedness and the parent link
invariant (the compressed node's contributed part extends the original
one, still starting with the same key). -/
theorem wf_compress : ∀ n : Node, Wf n →
    Wf n.compress ∧ ∀ b : List Char, ∀ k : Char, ChildLink b k n → ChildLink b k n.compress := by
  intro n
  generalize hN : n.count = N
  induction N using Nat.strong_induction_on generalizing n with
  | _ N ih =>
      intro hwf
      subst hN
      rw [compress_unfold]
      by_cases hcond : n.children.length = 1 ∧ n.is_word = false ∧ n.part_len ≠ 0
      · rw [if_pos hcond]
        have hlt := mergeNode_count_lt hcond.1
        obtain ⟨hlen, hw, hpl⟩ := hcond
        -- extract the single child
        cases n with
        | mk p l cs w =>
            simp only [Node.children_mk] at hlen
            rcases cs with _ | ⟨⟨k2, c⟩, tl⟩
            · simp at hlen
            · rcases tl with _ | ⟨hd2, tl2⟩
              · rw [mergeNode_singleton]
                have hmem : ((k2, c) : Char × Node) ∈ (Node.mk p l [(k2, c)] w).children :=
                  List.mem_cons_self _ _
                have hlink2 := wf_link hwf (k2, c) hmem
                have hwfc := wf_child hwf (k2, c) hmem
                obtain ⟨part2, hp2, hl2, hh2⟩ := hlink2
                have hwfm : Wf (Node.mk c.pfx (l + c.part_len) c.children c.is_word) := by
                  constructor
                  · have hx := wf_keys hwfc
                    exact hx
                  · intro pr hpr
                    exact wf_link hwfc pr hpr
                  · intro pr hpr
                    exact wf_child hwfc pr hpr
                have hcnt : (Node.mk c.pfx (l + c.part_len) c.children c.is_word).count
                    < (Node.mk p l [(k2, c)] w).count := by
                  have := mergeNode_count_lt
                    (n := Node.mk p l [(k2, c)] w) (by simp)
                  rw [mergeNode_singleton] at this
                  exact this
                have hrec := ih _ hcnt _ rfl hwfm
                refine ⟨hrec.1, ?_⟩
                intro b k hcl
                apply hrec.2
                obtain ⟨part, hp, hl, hh⟩ := hcl
                refine ⟨part ++ part2, ?_, ?_, ?_⟩
                · simp only [Node.pfx_mk]
                  simp only [Node.pfx_mk] at hp2 hp
                  rw [hp2, hp, List.append_assoc]
                · simp only [Node.part_len_mk]
                  simp only [Node.part_len_mk] at hl
                  rw [List.length_append, hl2] at *
                  omega
                · cases part with
                  | nil => simp at hh
                  | cons a rest =>
                      simp at hh
                      simp [hh]
              · simp at hlen
      · rw [if_neg hcond]
        constructor
        · constructor
          · rw [Node.children_mk, keys_compress_goChildren]
            exact wf_keys hwf
          · intro pr hpr
            rw [Node.children_mk] at hpr
            obtain ⟨k, c, hm, rfl⟩ := (mem_compress_goChildren n.children).mp hpr
            have hl := wf_link hwf (k, c) hm
            have hc := wf_child hwf (k, c) hm
            have := (ih c.count (count_children_lt hm) c rfl hc).2 n.pfx k hl
            simpa using this
          · intro pr hpr
            rw [Node.children_mk] at hpr
            obtain ⟨k, c, hm, rfl⟩ := (mem_compress_goChildren n.children).mp hpr
            exact (ih c.count (count_children_lt hm) c rfl (wf_child hwf (k, c) hm)).1
        · intro b k hcl
          obtain ⟨part, hp, hl, hh⟩ := hcl
          exact ⟨part, by simpa using hp, by simpa using hl, hh⟩

theorem compress_of_part_len_zero {n : Node} (h : n.part_len = 0) :
    n.compress
      = Node.mk n.pfx n.part_len (Node.compress.goChildren n.children) n.is_word := by
  rw [compress_unfold, if_neg]
  rintro ⟨_, _, h3⟩
  exact h3 h

/-- The result of compressing any node never satisfies the merge guard. -/
theorem compress_good : ∀ n : Node,
    ¬(n.compress.children.length = 1 ∧ n.compress.is_word = false
      ∧ n.compress.part_len ≠ 0) := by
  intro n
  generalize hN : n.count = N
  induction N using Nat.strong_induction_on generalizing n with
  | _ N ih =>
      subst hN
      rw [compress_unfold]
      by_cases hcond : n.children.length = 1 ∧ n.is_word = false ∧ n.part_len ≠ 0
      · rw [if_pos hcond]
        exact ih _ (mergeNode_count_lt hcond.1) _ rfl
      · rw [if_neg hcond]
        simp only [Node.children_mk, Node.is_word_mk, Node.part_len_mk,
          length_compress_goChildren]
        exact hcond

/-- No node in the subtree of a compression result satisfies the merge
guard. -/
theorem compress_subnode_good : ∀ n m : Node, Subnode m n.compress →
    ¬(m.children.length = 1 ∧ m.is_word = false ∧ m.part_len ≠ 0) := by
  intro n
  generalize hN : n.count = N
  induction N using Nat.strong_induction_on generalizing n with
  | _ N ih =>
      subst hN
      intro m hsub
      rw [compress_unfold] at hsub
      by_cases hcond : n.children.length = 1 ∧ n.is_word = false ∧ n.part_len ≠ 0
      · rw [if_pos hcond] at hsub
        exact ih _ (mergeNode_count_lt hcond.1) _ rfl m hsub
      · rw [if_neg hcond] at hsub
        cases hsub with
        | refl =>
            have := compress_good n
            rw [compress_unfold, if_neg hcond] at this
            exact this
        | step hmem hsub' =>
            rw [Node.children_mk] at hmem
            obtain ⟨k, c, hm, heq⟩ := (mem_compress_goChildren n.children).mp hmem
            cases heq
            exact ih c.count (count_children_lt hm) c rfl m hsub'

theorem wf_subnode {m n : Node} (hwf : Wf n) (h : Subnode m n) : Wf m := by
  induction h with
  | refl => exact hwf
  | step hmem hsub ih => exact ih (wf_child hwf _ hmem)

theorem subnode_part_len {m n : Node} (hwf : Wf n) (h : Subnode m n) :
    m = n ∨ 0 < m.part_len := by
  induction h with
  | refl => exact Or.inl rfl
  | step hmem hsub ih =>
      rename_i c' n' k'
      right
      obtain ⟨part, hp, hl, hh⟩ := wf_link hwf (k', c') hmem
      have hpos : 0 < c'.part_len := by
        cases part with
        | nil => simp at hh
        | cons a rest => rw [hl]; simp
      rcases ih (wf_child hwf (k', c') hmem) with rfl | hpos'
      · exact hpos
      · exact hpos'

-- ===================================================================
-- The find walk
-- ===================================================================

theorem lookupChild_of_mem_nodup :
    ∀ {cs : List (Char × Node)} {k : Char} {c : Node},
      (cs.map Prod.fst).Nodup → (k, c) ∈ cs → lookupChild cs k = some c := by
  intro cs
  induction cs with
  | nil => intro k c _ h; cases h
  | cons hd tl ih =>
      intro k c hnd h
      cases hd with
      | mk k' c' =>
          simp only [List.map_cons, List.nodup_cons] at hnd
          rcases List.mem_cons.mp h with heq | h
          · cases heq
            simp [lookupChild]
          · have hk : k' ≠ k := by
              intro hkk
              subst hkk
              exact hnd.1 (List.mem_map_of_mem Prod.fst h)
            simp only [lookupChild, if_neg hk]
            exact ih hnd.2 h

theorem findFrom_subnode :
    ∀ (current : Node) (p : List Char) (cur : Nat) (n : Node),
      Trie.findFrom current p cur = some n → Subnode n current := by
  intro current
  generalize hN : current.count = N
  induction N using Nat.strong_induction_on generalizing current with
  | _ N ih =>
      subst hN
      intro p cur n h
      by_cases hlt : cur < p.length
      · cases hgc : current.get_child (p.get ⟨cur, hlt⟩) with
        | none => rw [findFrom_none current p cur hlt hgc] at h; cases h
        | some child =>
            rw [findFrom_step current p cur hlt child hgc] at h
            have hsub := ih child.count (get_child_count_lt hgc) child rfl p _ n h
            exact hsub.trans (Subnode.step (lookupChild_mem hgc) (Subnode.refl child))
      · rw [findFrom_term current p cur hlt] at h
        cases h
        exact Subnode.refl _

theorem subnode_pfx_extends {m n : Node} (h : Subnode m n) : Wf n → n.pfx <+: m.pfx := by
  induction h with
  | refl => intro _; exact List.prefix_rfl
  | step hmem hsub ih =>
      rename_i c' n' k'
      intro hwf
      obtain ⟨part, hp, _, _⟩ := wf_link hwf (k', c') hmem
      have h2 := ih (wf_child hwf (k', c') hmem)
      have h1 : n'.pfx <+: c'.pfx := by
        rw [hp]; exact List.prefix_append _ _
      exact h1.trans h2

/-- The main completeness property of the walk: if a word node `m` with
prefix `w` lives in the (well-formed) subtree of `current`, the walk for
any `p` that is a prefix of `w` succeeds, and `m` is in the subtree of
the located node. -/
theorem walk_reaches :
    ∀ (current m : Node) (w p : List Char) (cur : Nat),
      Wf current → Subnode m current → m.pfx = w → p <+: w →
      current.pfx = w.take cur →
      ∃ n, Trie.findFrom current p cur = some n ∧ Subnode m n
        ∧ ∃ j, p.length ≤ j ∧ n.pfx = w.take j := by
  intro current
  generalize hN : current.count = N
  induction N using Nat.strong_induction_on generalizing current with
  | _ N ih =>
      subst hN
      intro m w p cur hwf hsub hm hp hcur
      by_cases hlt : cur < p.length
      · have hlenp : p.length ≤ w.length := hp.length_le
        have hne : m ≠ current := by
          intro he
          subst he
          rw [hm] at hcur
          have hl1 := congrArg List.length hcur
          rw [List.length_take] at hl1
          omega
        cases hsub with
        | refl => exact absurd rfl hne
        | step hmem hsub' =>
            rename_i c k
            obtain ⟨part, hcp, hcl, hch⟩ := wf_link hwf (k, c) hmem
            have hcp' : c.pfx = current.pfx ++ part := hcp
            have hcl' : c.part_len = part.length := hcl
            have hch' : part.head? = some k := hch
            have hwfc : Wf c := wf_child hwf (k, c) hmem
            have hcwpfx : c.pfx <+: w := by
              rw [← hm]
              exact subnode_pfx_extends hsub' hwfc
            have htakelen : (List.take cur w).length = cur := by
              rw [List.length_take]
              omega
            obtain ⟨s, hs⟩ := hcwpfx
            have hwsplit : w = List.take cur w ++ (part ++ s) := by
              conv_lhs => rw [← hs]
              rw [hcp', hcur, List.append_assoc]
            have hdrop : List.drop cur w = part ++ s := by
              conv_lhs => rw [hwsplit]
              rw [List.drop_append_eq_append_drop, htakelen]
              simp
            have hpartne : part ≠ [] := by
              intro he
              rw [he] at hch'
              cases hch'
            have hcurlt : cur < w.length := by omega
            have hgetw : w[cur] = k := by
              have hg1 : w[cur]? = (part ++ s).head? := by
                rw [← List.head?_drop, hdrop]
              have hg2 : (part ++ s).head? = some k := by
                cases part with
                | nil => exact absurd rfl hpartne
                | cons a r => simpa using hch'
              rw [List.getElem?_eq_getElem hcurlt] at hg1
              exact Option.some.inj (hg1.trans hg2)
            have hgetp : p.get ⟨cur, hlt⟩ = k := by
              have hpe := List.IsPrefix.getElem hp hlt
              simp only [List.get_eq_getElem]
              rw [hpe, hgetw]
            have hgc : current.get_child (p.get ⟨cur, hlt⟩) = some c := by
              rw [hgetp]
              exact lookupChild_of_mem_nodup (wf_keys hwf) hmem
            rw [findFrom_step current p cur hlt c hgc]
            have hcpfx_take : c.pfx = List.take (cur + c.part_len) w := by
              rw [List.take_add, ← hcur, hdrop, hcl', List.take_left]
              exact hcp'
            exact ih c.count (count_children_lt hmem) c rfl m w p (cur + c.part_len)
              hwfc hsub' hm hp hcpfx_take
      · exact ⟨current, findFrom_term current p cur hlt, hsub, cur, by omega, hcur⟩

/-- Walk monotonicity: whenever the walk for the longer prefix `p2`
locates a node, the walk for the shorter `p1` also locates one and the
former's node lies in the latter's subtree. -/
theorem walk_mono :
    ∀ (current : Node) (p1 p2 : List Char) (cur : Nat), p1 <+: p2 →
      ∀ n2, Trie.findFrom current p2 cur = some n2 →
        ∃ n1, Trie.findFrom current p1 cur = some n1 ∧ Subnode n2 n1 := by
  intro current
  generalize hN : current.count = N
  induction N using Nat.strong_induction_on generalizing current with
  | _ N ih =>
      subst hN
      intro p1 p2 cur hp n2 h2
      by_cases hlt1 : cur < p1.length
      · have hlt2 : cur < p2.length := by
          have := hp.length_le
          omega
        have hchar : p1.get ⟨cur, hlt1⟩ = p2.get ⟨cur, hlt2⟩ := by
          have hpe := List.IsPrefix.getElem hp hlt1
          simp only [List.get_eq_getElem]
          exact hpe
        cases hgc : current.get_child (p2.get ⟨cur, hlt2⟩) with
        | none =>
            rw [findFrom_none current p2 cur hlt2 hgc] at h2
            cases h2
        | some child =>
            rw [findFrom_step current p2 cur hlt2 child hgc] at h2
            have hgc1 : current.get_child (p1.get ⟨cur, hlt1⟩) = some child := by
              rw [hchar]
              exact hgc
            rw [findFrom_step current p1 cur hlt1 child hgc1]
            exact ih child.count (get_child_count_lt hgc) child rfl p1 p2 _ hp n2 h2
      · rw [findFrom_term current p1 cur hlt1]
        exact ⟨current, rfl, findFrom_subnode current p2 cur n2 h2⟩

-- ===================================================================
-- The built trie
-- ===================================================================

theorem from_words_root (ws : List (List Char)) :
    (Trie.from_words ws).root = Node.compress (ws.foldl Node.insertW Node.root) := rfl

theorem from_words_size (ws : List (List Char)) :
    (Trie.from_words ws).size = ws.length := rfl

theorem wf_from_words (ws : List (List Char)) : Wf (Trie.from_words ws).root := by
  rw [from_words_root]
  exact (wf_compress _ (wf_of_uni _ (uni_foldl ws Node.root uni_root))).1

theorem mem_wordsBelow_from_words (ws : List (List Char)) (v : List Char) :
    v ∈ (Trie.from_words ws).root.wordsBelow ↔ v ∈ ws := by
  rw [from_words_root, wordsBelow_compress]
  exact mem_wordsBelow_phase1 ws v

theorem from_words_root_pfx (ws : List (List Char)) :
    (Trie.from_words ws).root.pfx = [] := by
  rw [from_words_root, compress_of_part_len_zero (by rw [foldl_insertW_part_len]; rfl)]
  simp [foldl_insertW_pfx, Node.root]

theorem from_words_root_part_len (ws : List (List Char)) :
    (Trie.from_words ws).root.part_len = 0 := by
  rw [from_words_root, compress_of_part_len_zero (by rw [foldl_insertW_part_len]; rfl)]
  simp [foldl_insertW_part_len, Node.root]

theorem from_words_root_is_word (ws : List (List Char)) (h : [] ∉ ws) :
    (Trie.from_words ws).root.is_word = false := by
  rw [from_words_root, compress_of_part_len_zero (by rw [foldl_insertW_part_len]; rfl)]
  simp only [Node.is_word_mk]
  rw [foldl_insertW_is_word ws Node.root h]
  rfl

theorem subnode_eq_of_pfx_le {m n : Node} (hwf : Wf n) (hsub : Subnode m n)
    (hlen : m.pfx.length ≤ n.pfx.length) : m = n := by
  cases hsub with
  | refl => rfl
  | step hmem hsub' =>
      rename_i c k
      obtain ⟨part, hcp, hcl, hch⟩ := wf_link hwf (k, c) hmem
      have hcp' : c.pfx = n.pfx ++ part := hcp
      have hch' : part.head? = some k := hch
      have hpartne : part ≠ [] := by
        intro he
        rw [he] at hch'
        cases hch'
      have h1 : c.pfx <+: m.pfx := subnode_pfx_extends hsub' (wf_child hwf (k, c) hmem)
      have h2 := h1.length_le
      rw [hcp', List.length_append] at h2
      have h3 : 0 < part.length := List.length_pos.mpr hpartne
      omega

theorem contains_from_words_iff (ws : List (List Char)) (w : List Char) :
    (Trie.from_words ws).containsW w = true ↔ w ∈ ws := by
  constructor
  · intro h
    rw [Trie.containsW] at h
    cases hf : (Trie.from_words ws).find_node w with
    | none => rw [hf] at h; simp at h
    | some n =>
        rw [hf] at h
        simp only [Bool.and_eq_true, beq_iff_eq] at h
        obtain ⟨hword, hpfx⟩ := h
        have hsub : Subnode n (Trie.from_words ws).root := findFrom_subnode _ _ _ _ hf
        have hmem := mem_wordsBelow_of_subnode hsub hword
        rw [hpfx] at hmem
        exact (mem_wordsBelow_from_words ws w).mp hmem
  · intro h
    obtain ⟨m, hsub, hword, hpfx⟩ :=
      exists_subnode_of_mem_wordsBelow _ w ((mem_wordsBelow_from_words ws w).mpr h)
    obtain ⟨n, hfind, hmn, j, hj, hnpfx⟩ :=
      walk_reaches (Trie.from_words ws).root m w w 0 (wf_from_words ws) hsub hpfx
        List.prefix_rfl (by rw [from_words_root_pfx]; simp)
    have hn_pfx_w : n.pfx = w := by
      rw [hnpfx, List.take_of_length_le (by omega)]
    have hwfn : Wf n := wf_subnode (wf_from_words ws) (findFrom_subnode _ _ _ _ hfind)
    have hmn_eq : m = n := subnode_eq_of_pfx_le hwfn hmn (by rw [hpfx, hn_pfx_w])
    cases hmn_eq
    rw [Trie.containsW]
    have hfind' : (Trie.from_words ws).find_node w = some m := hfind
    rw [hfind']
    simp [hword, hpfx]

theorem wordsP_from_words_sound (ws : List (List Char)) (p v : List Char)
    (h : v ∈ (Trie.from_words ws).wordsP p) : v ∈ ws := by
  rw [Trie.wordsP] at h
  by_cases hp : p.isEmpty
  · rw [if_pos hp] at h
    exact (mem_wordsBelow_from_words ws v).mp h
  · rw [if_neg hp] at h
    cases hf : (Trie.from_words ws).find_node p with
    | none => rw [hf] at h; simp at h
    | some n =>
        rw [hf] at h
        have hsub : Subnode n (Trie.from_words ws).root := findFrom_subnode _ _ _ _ hf
        exact (mem_wordsBelow_from_words ws v).mp (wordsBelow_subset_of_subnode hsub v h)

theorem wordsP_from_words_complete (ws : List (List Char)) (p w : List Char)
    (hmem : w ∈ ws) (hpre : p <+: w) : w ∈ (Trie.from_words ws).wordsP p := by
  rw [Trie.wordsP]
  by_cases hp : p.isEmpty
  · rw [if_pos hp]
    exact (mem_wordsBelow_from_words ws w).mpr hmem
  · rw [if_neg hp]
    obtain ⟨m, hsub, hword, hpfx⟩ :=
      exists_subnode_of_mem_wordsBelow _ w ((mem_wordsBelow_from_words ws w).mpr hmem)
    obtain ⟨n, hfind, hmn, j, hj, hnpfx⟩ :=
      walk_reaches (Trie.from_words ws).root m w p 0 (wf_from_words ws) hsub hpfx hpre
        (by rw [from_words_root_pfx]; simp)
    have hfind' : (Trie.from_words ws).find_node p = some n := hfind
    rw [hfind']
    rw [← hpfx]
    exact mem_wordsBelow_of_subnode hmn hword

theorem wordsP_from_words_mono (ws : List (List Char)) (p1 p2 : List Char)
    (hp : p1 <+: p2) :
    ∀ v ∈ (Trie.from_words ws).wordsP p2, v ∈ (Trie.from_words ws).wordsP p1 := by
  intro v hv
  by_cases h1 : p1.isEmpty
  · rw [Trie.wordsP, if_pos h1]
    exact (mem_wordsBelow_from_words ws v).mpr (wordsP_from_words_sound ws p2 v hv)
  · have h2 : ¬ (p2.isEmpty = true) := by
      intro hh
      have hp2 : p2 = [] := by simpa using hh
      subst hp2
      have hp1 : p1 = [] := List.prefix_nil.mp hp
      apply h1
      simp [hp1]
    rw [Trie.wordsP, if_neg h2] at hv
    cases hf2 : (Trie.from_words ws).find_node p2 with
    | none => rw [hf2] at hv; simp at hv
    | some n2 =>
        rw [hf2] at hv
        obtain ⟨n1, hf1, hsub⟩ := walk_mono (Trie.from_words ws).root p1 p2 0 hp n2 hf2
        rw [Trie.wordsP, if_neg h1]
        have hf1' : (Trie.from_words ws).find_node p1 = some n1 := hf1
        rw [hf1']
        exact wordsBelow_subset_of_subnode hsub v hv

-- ===================================================================
-- No duplicates in the enumeration
-- ===================================================================

theorem pfx_prefix_of_mem_wordsBelow {n : Node} (hwf : Wf n) {v : List Char}
    (h : v ∈ n.wordsBelow) : n.pfx <+: v := by
  obtain ⟨m, hsub, hword, hpfx⟩ := exists_subnode_of_mem_wordsBelow n v h
  rw [← hpfx]
  exact subnode_pfx_extends hsub hwf

theorem key_of_mem_wordsBelow {n : Node} (hwf : Wf n) {k : Char} {c : Node}
    (hmem : (k, c) ∈ n.children) {v : List Char} (hv : v ∈ c.wordsBelow) :
    v[n.pfx.length]? = some k := by
  obtain ⟨part, hcp, hcl, hch⟩ := wf_link hwf (k, c) hmem
  have hcp' : c.pfx = n.pfx ++ part := hcp
  have hch' : part.head? = some k := hch
  have hpre : c.pfx <+: v := pfx_prefix_of_mem_wordsBelow (wf_child hwf (k, c) hmem) hv
  obtain ⟨t, ht⟩ := hpre
  have hv_eq : v = n.pfx ++ (part ++ t) := by
    rw [← ht, hcp', List.append_assoc]
  rw [← List.head?_drop, hv_eq, List.drop_left]
  cases part with
  | nil => cases hch'
  | cons a r => simpa using hch'

theorem nodup_wc (j : Nat) :
    ∀ (cs : List (Char × Node)),
      (cs.map Prod.fst).Nodup →
      (∀ pr ∈ cs, (pr.2.wordsBelow).Nodup) →
      (∀ pr ∈ cs, ∀ v ∈ pr.2.wordsBelow, v[j]? = some pr.1) →
      (Node.wordsBelow.wordsChildren cs).Nodup := by
  intro cs
  induction cs with
  | nil => intro _ _ _; simp
  | cons hd tl ih =>
      cases hd with
      | mk k c =>
          intro hkeys hnd hkey
          rw [wordsChildren_cons, List.nodup_append]
          have hkeys' : (k :: tl.map Prod.fst).Nodup := by simpa using hkeys
          refine ⟨hnd (k, c) (List.mem_cons_self _ _), ?_, ?_⟩
          · apply ih
            · exact (List.nodup_cons.mp hkeys').2
            · intro pr hpr
              exact hnd pr (List.mem_cons_of_mem _ hpr)
            · intro pr hpr v hv
              exact hkey pr (List.mem_cons_of_mem _ hpr) v hv
          · intro v hv1 hv2
            obtain ⟨pr2, hpr2, hv2'⟩ := mem_wordsChildren_iff.mp hv2
            have h1 := hkey (k, c) (List.mem_cons_self _ _) v hv1
            have h2 := hkey pr2 (List.mem_cons_of_mem _ hpr2) v hv2'
            rw [h1] at h2
            have hkk : k = pr2.1 := by
              injection h2
            apply (List.nodup_cons.mp hkeys').1
            rw [hkk]
            exact List.mem_map_of_mem Prod.fst hpr2

theorem nodup_wordsBelow : ∀ n : Node, Wf n → n.wordsBelow.Nodup := by
  intro n
  induction n using node_strong_induction with
  | _ n ih =>
      intro hwf
      cases n with
      | mk p l cs w =>
          rw [Node.wordsBelow_mk, List.nodup_append]
          refine ⟨?_, ?_, ?_⟩
          · cases w <;> simp
          · apply nodup_wc p.length cs
            · have := wf_keys hwf
              simpa using this
            · intro pr hpr
              exact ih pr hpr (wf_child hwf pr hpr)
            · intro pr hpr v hv
              obtain ⟨k, c⟩ := pr
              have := key_of_mem_wordsBelow hwf hpr hv
              simpa using this
          · intro v hv1 hv2
            cases w with
            | false => simp at hv1
            | true =>
                simp at hv1
                subst hv1
                obtain ⟨⟨k, c⟩, hpr, hv'⟩ := mem_wordsChildren_iff.mp hv2
                obtain ⟨part, hcp, hcl, hch⟩ := wf_link hwf (k, c) hpr
                have hcp' : c.pfx = v ++ part := hcp
                have hpre : c.pfx <+: v :=
                  pfx_prefix_of_mem_wordsBelow (wf_child hwf (k, c) hpr) hv'
                have hlen := hpre.length_le
                rw [hcp', List.length_append] at hlen
                have hch' : part.head? = some k := hch
                have hne : part ≠ [] := by
                  intro he
                  rw [he] at hch'
                  cases hch'
                have := List.length_pos.mpr hne
                omega

theorem nodup_wordsP_from_words (ws : List (List Char)) (p : List Char) :
    ((Trie.from_words ws).wordsP p).Nodup := by
  rw [Trie.wordsP]
  by_cases hp : p.isEmpty
  · rw [if_pos hp]
    exact nodup_wordsBelow _ (wf_from_words ws)
  · rw [if_neg hp]
    cases hf : (Trie.from_words ws).find_node p with
    | none => simp
    | some n =>
        exact nodup_wordsBelow n (wf_subnode (wf_from_words ws) (findFrom_subnode _ _ _ _ hf))

-- ===================================================================
-- Duplicate insertion is the identity
-- ===================================================================

theorem present_insertW_self : ∀ (w : List Char) (n : Node), Present (n.insertW w) w := by
  intro w
  induction w with
  | nil =>
      intro n
      cases n with
      | mk p l cs b =>
          rw [insertW_nil]
          show (Node.mk p l cs true).is_word = true
          rfl
  | cons c rest ih =>
      intro n
      cases n with
      | mk p l cs b =>
          cases hl : lookupChild cs c with
          | some child =>
              rw [insertW_cons_some p l b rest hl]
              exact ⟨child.insertW rest, lookupChild_updateChild_self, ih child⟩
          | none =>
              rw [insertW_cons_none p l b rest hl]
              exact ⟨(Node.mk (p ++ [c]) 1 [] false).insertW rest,
                lookupChild_updateChild_self, ih _⟩

theorem present_insertW_mono :
    ∀ (v : List Char) (n : Node) (w : List Char), Present n w → Present (n.insertW v) w := by
  intro v
  induction v with
  | nil =>
      intro n w h
      cases n with
      | mk p l cs b =>
          rw [insertW_nil]
          cases w with
          | nil => show (Node.mk p l cs true).is_word = true; rfl
          | cons d r => exact h
  | cons c rest ih =>
      intro n w h
      cases n with
      | mk p l cs b =>
          cases hl : lookupChild cs c with
          | some child =>
              rw [insertW_cons_some p l b rest hl]
              cases w with
              | nil => exact h
              | cons d r =>
                  obtain ⟨ch, hch, hpres⟩ := h
                  simp only [Node.children_mk] at hch
                  by_cases hdc : d = c
                  · subst hdc
                    have hcc : ch = child := by
                      rw [hl] at hch
                      exact (Option.some.inj hch).symm
                    subst hcc
                    exact ⟨ch.insertW rest, lookupChild_updateChild_self, ih ch r hpres⟩
                  · refine ⟨ch, ?_, hpres⟩
                    show lookupChild (updateChild cs c (child.insertW rest)) d = some ch
                    rw [lookupChild_updateChild_ne hdc]
                    exact hch
          | none =>
              rw [insertW_cons_none p l b rest hl]
              cases w with
              | nil => exact h
              | cons d r =>
                  obtain ⟨ch, hch, hpres⟩ := h
                  simp only [Node.children_mk] at hch
                  by_cases hdc : d = c
                  · subst hdc
                    rw [hl] at hch
                    cases hch
                  · refine ⟨ch, ?_, hpres⟩
                    show lookupChild
                      (updateChild cs c ((Node.mk (p ++ [c]) 1 [] false).insertW rest)) d
                        = some ch
                    rw [lookupChild_updateChild_ne hdc]
                    exact hch

theorem insertW_of_present :
    ∀ (w : List Char) (n : Node), Present n w → n.insertW w = n := by
  intro w
  induction w with
  | nil =>
      intro n h
      cases n with
      | mk p l cs b =>
          rw [insertW_nil]
          have hb : b = true := h
          rw [hb]
  | cons c rest ih =>
      intro n h
      cases n with
      | mk p l cs b =>
          obtain ⟨ch, hch, hpres⟩ := h
          have hch' : lookupChild cs c = some ch := hch
          rw [insertW_cons_some p l b rest hch']
          rw [ih ch hpres, updateChild_self hch']

theorem present_foldl :
    ∀ (ws : List (List Char)) (n : Node) (w : List Char),
      Present n w → Present (ws.foldl Node.insertW n) w := by
  intro ws
  induction ws with
  | nil => intro n w h; exact h
  | cons v ws' ih =>
      intro n w h
      exact ih _ w (present_insertW_mono v n w h)

theorem present_all (ws : List (List Char)) :
    ∀ n : Node, ∀ w ∈ ws, Present (ws.foldl Node.insertW n) w := by
  induction ws with
  | nil => intro n w h; cases h
  | cons v ws' ih =>
      intro n w h
      rw [List.foldl_cons]
      rcases List.mem_cons.mp h with rfl | h
      · exact present_foldl ws' _ w (present_insertW_self w n)
      · exact ih _ w h

theorem foldl_id_of_present :
    ∀ (ws : List (List Char)) (n : Node), (∀ w ∈ ws, Present n w) →
      ws.foldl Node.insertW n = n := by
  intro ws
  induction ws with
  | nil => intro n _; rfl
  | cons v ws' ih =>
      intro n h
      rw [List.foldl_cons, insertW_of_present v n (h v (List.mem_cons_self _ _))]
      exact ih n (fun w hw => h w (List.mem_cons_of_mem _ hw))

/-- Inserting the same word list twice produces the identical phase-1
tree. -/
theorem foldl_insertW_append_self (ws : List (List Char)) :
    (ws ++ ws).foldl Node.insertW Node.root = ws.foldl Node.insertW Node.root := by
  rw [List.foldl_append]
  exact foldl_id_of_present ws _ (present_all ws Node.root)

theorem from_words_append_self_root (ws : List (List Char)) :
    (Trie.from_words (ws ++ ws)).root = (Trie.from_words ws).root := by
  rw [from_words_root, from_words_root, foldl_insertW_append_self]

theorem containsW_congr {t1 t2 : Trie} (h : t1.root = t2.root) (w : List Char) :
    t1.containsW w = t2.containsW w := by
  rw [Trie.containsW, Trie.containsW, Trie.find_node, Trie.find_node, h]

theorem wordsP_congr {t1 t2 : Trie} (h : t1.root = t2.root) (p : List Char) :
    t1.wordsP p = t2.wordsP p := by
  rw [Trie.wordsP, Trie.wordsP, Trie.find_node, Trie.find_node, h]

-- ===================================================================
-- Persistence codec round trip
-- ===================================================================

theorem childLink_facts {base : List Char} {k : Char} {c : Node} (h : ChildLink base k c) :
    base ++ c.pfxPart = c.pfx ∧ c.pfxPart.headI = k ∧ c.part_len ≠ 0 := by
  obtain ⟨part, hp, hl, hh⟩ := h
  have hne : part ≠ [] := by
    intro he
    rw [he] at hh
    cases hh
  have hlen0 : c.part_len ≠ 0 := by
    rw [hl]
    intro h0
    exact hne (List.length_eq_zero.mp h0)
  have hpfxPart : c.pfxPart = part := by
    rw [Node.pfxPart, if_neg hlen0, hp, hl, List.length_append]
    have harith : base.length + part.length - part.length = base.length := by omega
    rw [harith, List.drop_left]
  refine ⟨by rw [hpfxPart, hp], ?_, hlen0⟩
  rw [hpfxPart]
  cases part with
  | nil => cases hh
  | cons a r =>
      simp at hh
      simp [hh]

theorem to_dict_goChildren_nil : Node.to_dict.goChildren [] = [] := rfl

theorem to_dict_goChildren_cons (k : Char) (c : Node) (tl : List (Char × Node)) :
    Node.to_dict.goChildren ((k, c) :: tl)
      = (k, c.to_dict) :: Node.to_dict.goChildren tl := rfl

theorem from_dict_goChildren_nil (p : List Char) (acc : List (Char × Node)) :
    Node.from_dict.goChildren [] p acc = acc := rfl

theorem from_dict_goChildren_cons (k0 : Char) (d : NodeData)
    (tl : List (Char × NodeData)) (p : List Char) (acc : List (Char × Node)) :
    Node.from_dict.goChildren ((k0, d) :: tl) p acc
      = Node.from_dict.goChildren tl p
          (updateChild acc (Node.from_dict d p).pfxPart.headI (Node.from_dict d p)) := rfl

theorem goChildren_roundtrip :
    ∀ (cs : List (Char × Node)) (p : List Char),
      (∀ pr ∈ cs, ChildLink p pr.1 pr.2) →
      (∀ pr ∈ cs, Node.from_dict pr.2.to_dict p = pr.2) →
      ∀ acc : List (Char × Node),
        (acc.map Prod.fst ++ cs.map Prod.fst).Nodup →
        Node.from_dict.goChildren (Node.to_dict.goChildren cs) p acc = acc ++ cs := by
  intro cs
  induction cs with
  | nil =>
      intro p _ _ acc _
      rw [to_dict_goChildren_nil, from_dict_goChildren_nil]
      simp
  | cons hd tl ih =>
      cases hd with
      | mk k c =>
          intro p hlink hrt acc hnd
          rw [to_dict_goChildren_cons, from_dict_goChildren_cons]
          have hc : Node.from_dict c.to_dict p = c := hrt (k, c) (List.mem_cons_self _ _)
          rw [hc]
          have hfacts := childLink_facts (hlink (k, c) (List.mem_cons_self _ _))
          rw [hfacts.2.1]
          have hknotin : lookupChild acc k = none := by
            rw [lookupChild_eq_none]
            intro hmem
            have hdisj := (List.nodup_append.mp (by simpa using hnd)).2.2
            exact hdisj hmem (List.mem_cons_self _ _)
          rw [updateChild_of_none _ hknotin]
          have hnd' : ((acc ++ [(k, c)]).map Prod.fst ++ tl.map Prod.fst).Nodup := by
            have heq : (acc ++ [(k, c)]).map (Prod.fst (α := Char) (β := Node))
                ++ tl.map Prod.fst
                = acc.map Prod.fst ++ ((k, c) :: tl).map Prod.fst := by
              simp
            rw [heq]
            exact hnd
          rw [ih p (fun pr hpr => hlink pr (List.mem_cons_of_mem _ hpr))
            (fun pr hpr => hrt pr (List.mem_cons_of_mem _ hpr)) (acc ++ [(k, c)]) hnd']
          simp

theorem from_to_dict : ∀ n : Node, Wf n → ∀ base : List Char,
    base ++ n.pfxPart = n.pfx → Node.from_dict n.to_dict base = n := by
  intro n
  induction n using node_strong_induction with
  | _ n ih =>
      intro hwf base hbase
      cases n with
      | mk p l cs w =>
          show Node.from_dict (NodeData.mk (Node.pfxPart (Node.mk p l cs w)) l w
            (Node.to_dict.goChildren cs)) base = Node.mk p l cs w
          have hbase' : base ++ Node.pfxPart (Node.mk p l cs w) = p := hbase
          show Node.mk (base ++ Node.pfxPart (Node.mk p l cs w)) l
            (Node.from_dict.goChildren (Node.to_dict.goChildren cs)
              (base ++ Node.pfxPart (Node.mk p l cs w)) []) w = Node.mk p l cs w
          rw [hbase']
          have hgo : Node.from_dict.goChildren (Node.to_dict.goChildren cs) p [] = cs := by
            have h1 : ∀ pr ∈ cs, ChildLink p pr.1 pr.2 := by
              intro pr hpr
              exact wf_link hwf pr hpr
            have h2 : ∀ pr ∈ cs, Node.from_dict pr.2.to_dict p = pr.2 := by
              intro pr hpr
              have hfacts := childLink_facts (h1 pr hpr)
              exact ih pr hpr (wf_child hwf pr hpr) p hfacts.1
            have h3 : (([] : List (Char × Node)).map Prod.fst ++ cs.map Prod.fst).Nodup := by
              simpa using wf_keys hwf
            simpa using goChildren_roundtrip cs p h1 h2 [] h3
          rw [hgo]

theorem pfxPart_from_words_root (ws : List (List Char)) :
    [] ++ (Trie.from_words ws).root.pfxPart = (Trie.from_words ws).root.pfx := by
  rw [Node.pfxPart, if_pos (from_words_root_part_len ws)]
  simp

/-- Save/load round trip at the level of the decoded structure: loading
what was saved reproduces the trie exactly. -/
theorem load_save_roundtrip (ws : List (List Char)) :
    Trie.load_model (some (Trie.save_model (Trie.from_words ws)))
      = Except.ok (Trie.from_words ws) := by
  show Except.ok (Trie.mk (Node.from_dict (Trie.from_words ws).root.to_dict [])
      (Trie.from_words ws).size) = Except.ok (Trie.from_words ws)
  rw [from_to_dict (Trie.from_words ws).root (wf_from_words ws) []
    (pfxPart_from_words_root ws)]

-- ===================================================================
-- Claims
-- ===================================================================

/-- Claim C1, counterexample: `Trie.words` can yield a word that does not
share the queried prefix.  For the trie built from the single word
`"casa"` (one fully compressed edge), the query `words("cx")` yields
`"casa"`, although `"cx"` is not a prefix of `"casa"`: the length-based
walk only checks the first code unit of each compressed segment. -/
theorem claim_C1_counterexample :
    (Trie.from_words [['c', 'a', 's', 'a']]).wordsP ['c', 'x'] = [['c', 'a', 's', 'a']]
      ∧ ¬ (['c', 'x'] <+: ['c', 'a', 's', 'a']) := by
  constructor
  · rw [wordsP_eq_fuel, from_words_eq_fuel]
    decide
  · decide

/-- Claim C1, amended: for every trie `T = Trie.from_words(W)` and every
string `p`, the strings yielded by `T.words(p)` are pairwise distinct
words of `W`; every distinct word of `W` that has `p` as a prefix is
yielded; and if the length-based walk runs out of children before
consuming all of `p` the enumeration is empty.  (The original claim's
converse — that every yielded string shares the prefix `p` — is false,
see the counterexample: the walk checks only the first code unit of each
compressed segment, so `T.words(p)` enumerates the whole subtree of the
node the walk lands on.) -/
theorem claim_C1_amended (ws : List (List Char)) (p : List Char) :
    ((Trie.from_words ws).wordsP p).Nodup
    ∧ (∀ w, w ∈ ws → p <+: w → w ∈ (Trie.from_words ws).wordsP p)
    ∧ (∀ v, v ∈ (Trie.from_words ws).wordsP p → v ∈ ws)
    ∧ (p.isEmpty = false → (Trie.from_words ws).find_node p = none →
        (Trie.from_words ws).wordsP p = []) := by
  refine ⟨nodup_wordsP_from_words ws p,
    fun w hw hp => wordsP_from_words_complete ws p w hw hp,
    fun v hv => wordsP_from_words_sound ws p v hv, ?_⟩
  intro hne hfind
  rw [Trie.wordsP, if_neg (by simp [hne]), hfind]

/-- Claim C1, witness: the amended theorem applied to the trie of
`{"ab", "ac"}` with prefix `"a"` and word `"ab"`. -/
theorem claim_C1_witness :
    ['a', 'b'] ∈ [['a', 'b'], ['a', 'c']] ∧ ['a'] <+: ['a', 'b']
      ∧ ['a', 'b'] ∈ (Trie.from_words [['a', 'b'], ['a', 'c']]).wordsP ['a'] :=
  ⟨by decide, by decide,
    (claim_C1_amended [['a', 'b'], ['a', 'c']] ['a']).2.1 ['a', 'b'] (by decide) (by decide)⟩

/-- Claim C2: for every trie built via `Trie.from_words`, loading the
structure written by `Trie.save` (the `{"r": ..., "s": ...}` record that
the external byte codec round-trips) produces a trie equal to the
original — in particular its node graph is structurally identical
(equal `prefix`, `part_len`, `is_word` and children at every node,
recursively), its `size` is equal, and all membership and enumeration
results coincide. -/
theorem claim_C2 (ws : List (List Char)) :
    Trie.load_model (some (Trie.save_model (Trie.from_words ws)))
      = Except.ok (Trie.from_words ws) :=
  load_save_roundtrip ws

/-- Claim C3, counterexample: duplicating the input does not preserve
`size`: `Trie.from_words(["a", "a"])` has size 2 while
`Trie.from_words(["a"])` has size 1 (the code increments `_size` once
per insertion call, not once per distinct word). -/
theorem claim_C3_counterexample :
    (Trie.from_words ([['a']] ++ [['a']])).size ≠ (Trie.from_words [['a']]).size := by
  decide

/-- Claim C3, amended: `Trie.from_words(W ++ W)` and `Trie.from_words(W)`
produce identical root structures and hence identical query results
(`contains` and `words`), but the sizes differ: `size` equals the length
of the input list (one increment per insertion call), so the duplicated
input yields size `2·|W|`, not the number of distinct words. -/
theorem claim_C3_amended (ws : List (List Char)) :
    (Trie.from_words (ws ++ ws)).root = (Trie.from_words ws).root
    ∧ (∀ w, (Trie.from_words (ws ++ ws)).containsW w = (Trie.from_words ws).containsW w)
    ∧ (∀ p, (Trie.from_words (ws ++ ws)).wordsP p = (Trie.from_words ws).wordsP p)
    ∧ (Trie.from_words (ws ++ ws)).size = 2 * ws.length
    ∧ (Trie.from_words ws).size = ws.length := by
  refine ⟨from_words_append_self_root ws,
    fun w => containsW_congr (from_words_append_self_root ws) w,
    fun p => wordsP_congr (from_words_append_self_root ws) p, ?_, rfl⟩
  rw [from_words_size, List.length_append]
  omega

/-- Claim C4: for every trie `T = Trie.from_words(W)` and every string
`w`, the membership test returns true exactly when `w` is an element of
`W`: the walk returning false on a missing child and the final
`is_word ∧ prefix == word` check make strict prefixes of stored words
non-members. -/
theorem claim_C4 (ws : List (List Char)) (w : List Char) :
    (Trie.from_words ws).containsW w = true ↔ w ∈ ws :=
  contains_from_words_iff ws w

theorem subnode_count_le {m n : Node} (h : Subnode m n) : m.count ≤ n.count := by
  induction h with
  | refl => exact le_rfl
  | step hmem _ ih => exact le_trans ih (le_of_lt (count_children_lt hmem))

/-- Claim C5: after `Trie.from_words` returns, no reachable non-root
node (node strictly below the root) has both exactly one child and
`is_word = false`; the root is exempt. -/
theorem claim_C5 (ws : List (List Char)) (m : Node)
    (h : StrictSub m (Trie.from_words ws).root) :
    ¬ (m.children.length = 1 ∧ m.is_word = false) := by
  obtain ⟨pr, hpr, hsub⟩ := h
  rintro ⟨hlen, hword⟩
  have hsubroot : Subnode m (Trie.from_words ws).root := by
    obtain ⟨k, c⟩ := pr
    exact Subnode.step hpr hsub
  have hne : m ≠ (Trie.from_words ws).root := by
    intro he
    have h1 : m.count ≤ pr.2.count := subnode_count_le hsub
    have h2 : pr.2.count < (Trie.from_words ws).root.count := count_children_lt hpr
    rw [he] at h1
    omega
  have hpl : 0 < m.part_len := by
    rcases subnode_part_len (wf_from_words ws) hsubroot with he | hpl
    · exact absurd he hne
    · exact hpl
  have hgood := compress_subnode_good (ws.foldl Node.insertW Node.root) m
    (by rw [← from_words_root]; exact hsubroot)
  exact hgood ⟨hlen, hword, by omega⟩

/-- Claim C5, witness: in the trie of `{"ab", "ac"}`, the node `"a"`
(strictly below the root) has two children, satisfying the invariant. -/
theorem claim_C5_witness :
    StrictSub
      (Node.mk ['a'] 1 [('b', Node.mk ['a', 'b'] 1 [] true),
        ('c', Node.mk ['a', 'c'] 1 [] true)] false)
      (Trie.from_words [['a', 'b'], ['a', 'c']]).root
    ∧ ¬ ((Node.mk ['a'] 1 [('b', Node.mk ['a', 'b'] 1 [] true),
        ('c', Node.mk ['a', 'c'] 1 [] true)] false).children.length = 1
      ∧ (Node.mk ['a'] 1 [('b', Node.mk ['a', 'b'] 1 [] true),
        ('c', Node.mk ['a', 'c'] 1 [] true)] false).is_word = false) := by
  have hsub : StrictSub
      (Node.mk ['a'] 1 [('b', Node.mk ['a', 'b'] 1 [] true),
        ('c', Node.mk ['a', 'c'] 1 [] true)] false)
      (Trie.from_words [['a', 'b'], ['a', 'c']]).root := by
    rw [from_words_eq_fuel]
    exact ⟨('a', Node.mk ['a'] 1 [('b', Node.mk ['a', 'b'] 1 [] true),
      ('c', Node.mk ['a', 'c'] 1 [] true)] false), List.Mem.head _, Subnode.refl _⟩
  exact ⟨hsub, claim_C5 [['a', 'b'], ['a', 'c']] _ hsub⟩

/-- Claim C6, counterexample: inserting the empty string marks the root
itself as a word node, so `root.is_word` is not false for every input. -/
theorem claim_C6_counterexample :
    (Trie.from_words [([] : List Char)]).root.is_word = true := by
  rw [from_words_eq_fuel]
  decide

/-- Claim C6, amended: for every input list, the root of
`Trie.from_words` has empty `prefix` and `part_len = 0`; `is_word` is
false provided the input contains no empty string (inserting the empty
string sets the root's `is_word` to true, contradicting the original
"always" claim). -/
theorem claim_C6_amended (ws : List (List Char)) :
    (Trie.from_words ws).root.pfx = []
    ∧ (Trie.from_words ws).root.part_len = 0
    ∧ ([] ∉ ws → (Trie.from_words ws).root.is_word = false) :=
  ⟨from_words_root_pfx ws, from_words_root_part_len ws, from_words_root_is_word ws⟩

/-- Claim C6, witness: the amended theorem applied to the input
`["a"]`, which contains no empty string. -/
theorem claim_C6_witness :
    ([] : List Char) ∉ [['a']]
    ∧ (Trie.from_words [['a']]).root.pfx = []
    ∧ (Trie.from_words [['a']]).root.part_len = 0
    ∧ (Trie.from_words [['a']]).root.is_word = false :=
  ⟨by decide, (claim_C6_amended [['a']]).1, (claim_C6_amended [['a']]).2.1,
    (claim_C6_amended [['a']]).2.2 (by decide)⟩

/-- Claim C7: `Node.merge_with_child` raises exactly when the node is
word-terminal or does not have exactly one child (the check precedes any
mutation, so the node is unchanged in the error case of the in-place
original); on success the node adopts the child's `prefix`, `is_word`
and `children` (so every grandchild now hangs off the merged node, which
is the pure-tree rendering of re-pointing the parent back-references)
and `part_len` becomes the sum. -/
theorem claim_C7 (n : Node) :
    ((∃ e, n.merge_with_child = Except.error e)
      ↔ (n.is_word = true ∨ n.children.length ≠ 1))
    ∧ (∀ k : Char, ∀ c : Node, n.children = [(k, c)] → n.is_word = false →
        n.merge_with_child
          = Except.ok (Node.mk c.pfx (n.part_len + c.part_len) c.children c.is_word)) := by
  constructor
  · constructor
    · rintro ⟨e, he⟩
      by_cases hcond : n.is_word = true ∨ n.children.length ≠ 1
      · exact hcond
      · rw [Node.merge_with_child, if_neg hcond] at he
        cases he
    · intro hcond
      rw [Node.merge_with_child, if_pos hcond]
      exact ⟨_, rfl⟩
  · intro k c hch hw
    have hcond : ¬(n.is_word = true ∨ n.children.length ≠ 1) := by
      rintro (h1 | h2)
      · rw [hw] at h1
        cases h1
      · apply h2
        rw [hch]
        rfl
    rw [Node.merge_with_child, if_neg hcond]
    have hm : mergeNode n
        = Node.mk c.pfx (n.part_len + c.part_len) c.children c.is_word := by
      unfold mergeNode
      rw [hch]
    rw [hm]

/-- Claim C7, witness: merging the chain node `"a"` with its single
child `"ab"` produces the compressed node `"ab"` with summed
`part_len`. -/
theorem claim_C7_witness :
    (Node.mk ['a'] 1 [('b', Node.mk ['a', 'b'] 1 [] true)] false).children
        = [('b', Node.mk ['a', 'b'] 1 [] true)]
    ∧ (Node.mk ['a'] 1 [('b', Node.mk ['a', 'b'] 1 [] true)] false).is_word = false
    ∧ (Node.mk ['a'] 1 [('b', Node.mk ['a', 'b'] 1 [] true)] false).merge_with_child
        = Except.ok (Node.mk ['a', 'b'] 2 [] true) :=
  ⟨rfl, rfl,
    (claim_C7 (Node.mk ['a'] 1 [('b', Node.mk ['a', 'b'] 1 [] true)] false)).2
      'b' (Node.mk ['a', 'b'] 1 [] true) rfl rfl⟩

/-- Claim C8: `Trie.load` fails with an error — and returns no trie,
partial or otherwise — whenever the input bytes fail to
decompress/decode (modelled by `none`) or the decoded structure lacks
the required `"r"` or `"s"` field.  Only this failure direction is
asserted, exactly as the claim states it: the converse would be false of
the program, which can also fail on decodable inputs with both fields
present (a `ValueError` from a nested node dict missing `"p"`, `"l"` or
`"w"`, or an `IndexError` from `prefix_part[0]` on an empty
reconstructed part), error paths the total `Node.from_dict` embedding
does not reproduce. -/
theorem claim_C8 (od : Option TrieData)
    (h : od = none ∨ ∃ d, od = some d ∧ (d.r = none ∨ d.s = none)) :
    ∃ e, Trie.load_model od = Except.error e
      ∧ ∀ t : Trie, Trie.load_model od ≠ Except.ok t := by
  have herr : ∃ e, Trie.load_model od = Except.error e := by
    rcases h with rfl | ⟨d, rfl, hd⟩
    · exact ⟨_, rfl⟩
    · obtain ⟨r, s⟩ := d
      rcases hd with hr | hs
      · have hr' : r = none := hr
        subst hr'
        exact ⟨_, rfl⟩
      · have hs' : s = none := hs
        subst hs'
        cases r with
        | none => exact ⟨_, rfl⟩
        | some rv => exact ⟨_, rfl⟩
  obtain ⟨e, he⟩ := herr
  refine ⟨e, he, ?_⟩
  intro t ht
  rw [he] at ht
  cases ht

/-- Claim C8, witness: the decoded structure `{"s": 0}`, which is
missing the root field, is rejected with an error and yields no trie. -/
theorem claim_C8_witness :
    ((some (TrieData.mk none (some 0)) : Option TrieData) = none
      ∨ ∃ d, (some (TrieData.mk none (some 0)) : Option TrieData) = some d
          ∧ (d.r = none ∨ d.s = none))
    ∧ ∃ e, Trie.load_model (some (TrieData.mk none (some 0))) = Except.error e
        ∧ ∀ t : Trie, Trie.load_model (some (TrieData.mk none (some 0))) ≠ Except.ok t :=
  ⟨Or.inr ⟨TrieData.mk none (some 0), rfl, Or.inl rfl⟩,
    claim_C8 (some (TrieData.mk none (some 0)))
      (Or.inr ⟨TrieData.mk none (some 0), rfl, Or.inl rfl⟩)⟩

/-- Claim C9: prefix monotonicity of the enumeration: for every built
trie and prefixes `p1 <+: p2`, every word yielded for `p2` is also
yielded for `p1`. -/
theorem claim_C9 (ws : List (List Char)) (p1 p2 : List Char) (h : p1 <+: p2) :
    ∀ v ∈ (Trie.from_words ws).wordsP p2, v ∈ (Trie.from_words ws).wordsP p1 :=
  wordsP_from_words_mono ws p1 p2 h

/-- Claim C9, witness: the theorem applied to the trie of
`{"ca", "cb"}` with `p1 = "c"` and `p2 = "ca"`. -/
theorem claim_C9_witness :
    (['c'] <+: ['c', 'a'])
    ∧ ∀ v ∈ (Trie.from_words [['c', 'a'], ['c', 'b']]).wordsP ['c', 'a'],
        v ∈ (Trie.from_words [['c', 'a'], ['c', 'b']]).wordsP ['c'] :=
  ⟨by decide, claim_C9 [['c', 'a'], ['c', 'b']] ['c'] ['c', 'a'] (by decide)⟩

/-- Claim C10: the compression loop terminates on every phase-1 tree:
running it as a fueled loop with fuel at least twice the node count (the
decreasing measure: each loop iteration either merges, removing a node,
or descends into strictly smaller subtrees) completes without running
out, even though each merge pushes the merged node back for
re-examination. -/
theorem claim_C10 (ws : List (List Char)) (fuel : Nat)
    (h : 2 * (ws.foldl Node.insertW Node.root).count ≤ fuel) :
    (Node.compressFuel fuel (ws.foldl Node.insertW Node.root)).isSome = true :=
  compressFuel_isSome fuel _ h

/-- Claim C10, witness: the fueled compression of the phase-1 tree for
`["ab"]` (three nodes) completes with fuel 10. -/
theorem claim_C10_witness :
    2 * ([['a', 'b']].foldl Node.insertW Node.root).count ≤ 10
    ∧ (Node.compressFuel 10 ([['a', 'b']].foldl Node.insertW Node.root)).isSome = true :=
  ⟨by decide, claim_C10 [['a', 'b']] 10 (by decide)⟩
